import Mathlib

set_option maxHeartbeats 1000000
set_option maxRecDepth 4096

/-!
Verification development for the PromQL completion engine of
kubernetes-sigs/instrumentation-tools.

The Go sources are shallowly embedded: pure fragments become Lean
functions, the imperative chart/state-set code becomes explicit state
passing, machine integers become `Nat` with explicit `% 2^64` where the
Go code works on `uint64`, and code that can panic is modelled with
`Option` (`none` = runtime panic).  Mutable heap records (the completion
contexts shared between Earley items through pointers) are modelled by a
store of cells addressed by indices.
-/

namespace PromQL

/-- The closed token-type set of the lexer adapter
(`promq/autocomplete/earley/luthor.go`).  Each constructor corresponds to
one of the `TokenType` string constants. -/
inductive TokenType where
  | ID
  | METRIC_ID
  | METRIC_LABEL_SUBTYPE
  | FUNCTION_SCALAR_ID
  | FUNCTION_VECTOR_ID
  | OPERATOR
  | ARITHMETIC
  | COMPARISION
  | SET
  | LOGICAL  -- earlier-generation name for the set operators (first grammar copy)
  | LABELMATCH
  | UNARY_OP
  | AGGR_OP
  | KEYWORD
  | AGGR_KW
  | BOOL_KW
  | OFFSET_KW
  | GROUP_SIDE
  | GROUP_KW
  | LEFT_BRACE
  | RIGHT_BRACE
  | LEFT_PAREN
  | RIGHT_PAREN
  | LEFT_BRACKET
  | RIGHT_BRACKET
  | COMMA
  | COLON
  | STRING
  | NUM
  | DURATION
  | EOF
  | UNKNOWN
  deriving DecidableEq

/-- An Earley item as stored in a state set (`EarleyItem` in
`src/unnamed/part_002`).  We keep the fields that influence the chart
contents: the grammar-rule id (`Rule.grammarRuleId`, the index of the
rule in the grammar), the dot position `RulePos`, the origin
`originatingIndex`, and `terminalSymbolsConsumed` (used by the
suggested-type extractor).  The `id`, `cause` and `from` fields are debug
metadata: they are never read by `Add`, by the predict/scan/complete
operations, or by the extractor's decisions, so they are projected away.
The mutable `ctx` pointer is studied separately with an explicit store
(see the completion-context section below). -/
structure EarleyItem where
  ruleId : Nat
  rulePos : Nat
  origin : Nat
  tcons : Nat := 0
  deriving DecidableEq

/-- `EarleyItem.badhash` from `src/unnamed/part_002` lines 163-168:
`uint64(ruleId)<<32 | uint64(rulePos)<<16 | uint64(origin)` with Go
`uint64` wrap-around semantics made explicit on `Nat`. -/
def badhash (it : EarleyItem) : Nat :=
  (((it.ruleId % 2 ^ 64) <<< 32) % 2 ^ 64) |||
    (((it.rulePos % 2 ^ 64) <<< 16) % 2 ^ 64) ||| (it.origin % 2 ^ 64)

/-- A state set (`StateSet` in `src/unnamed/part_014`): the
insertion-ordered item list plus the auxiliary dedup set
`itemSet map[uint64]bool`, modelled as the list of inserted hash keys
(Go map membership is extensional, so only the key set matters). -/
structure StateSet where
  items : List EarleyItem
  itemSet : List Nat

/-- `NewStateSet`. -/
def NewStateSet : StateSet := ⟨[], []⟩

/-- `StateSet.Add` (`src/unnamed/part_014` lines 57-66): if the item's
`badhash` is already a member of `itemSet` return `false` and leave the
set unchanged, otherwise record the hash, append the item and return
`true`.  (The Go code also stamps the item's debug `id`; that field is
projected away, see `EarleyItem`.) -/
def StateSet.Add (s : StateSet) (item : EarleyItem) : StateSet × Bool :=
  if badhash item ∈ s.itemSet then (s, false)
  else ({ items := s.items ++ [item], itemSet := s.itemSet ++ [badhash item] }, true)

/-- Well-formedness of a state set: the dedup set holds exactly the
hashes of the stored items.  `NewStateSet` satisfies it and `Add`
preserves it. -/
def StateSet.WF (s : StateSet) : Prop := s.itemSet = s.items.map badhash

theorem NewStateSet_wf : NewStateSet.WF := rfl

theorem StateSet.Add_wf (s : StateSet) (it : EarleyItem) (h : s.WF) :
    (s.Add it).1.WF := by
  unfold StateSet.Add
  have h' : s.itemSet = s.items.map badhash := h
  split
  · exact h
  · simp [StateSet.WF, h']

/-- In-range items: the practical limits the source's comment assumes
("let's just assume we don't have more than 1k rules, or rules which are
over 500 chars long, or more than 500 symbols"): the rule id fits in
32 bits and the dot position and the origin index fit in 16 bits. -/
def EarleyItem.InRange (it : EarleyItem) : Prop :=
  it.ruleId < 2 ^ 32 ∧ it.rulePos < 2 ^ 16 ∧ it.origin < 2 ^ 16

instance (it : EarleyItem) : Decidable it.InRange := by
  unfold EarleyItem.InRange; infer_instance

/-- Bitwise or of a shifted value with a small value is addition:
`(a <<< n) ||| b = a * 2 ^ n + b` when `b < 2 ^ n`. -/
theorem shiftLeft_lor_eq_add (a : Nat) :
    ∀ n b : Nat, b < 2 ^ n → (a <<< n) ||| b = a * 2 ^ n + b := by
  intro n
  induction n generalizing a with
  | zero =>
    intro b hb
    interval_cases b
    simp [Nat.shiftLeft_zero]
  | succ n ih =>
    intro b hb
    have hrep : Nat.bit (b.testBit 0) (b >>> 1) = b :=
      Nat.bit_testBit_zero_shiftRight_one b
    have hsh : a <<< (n + 1) = Nat.bit false (a <<< n) := by
      simp [Nat.shiftLeft_succ, Nat.bit, Nat.mul_comm]
    have hhalf : b >>> 1 < 2 ^ n := by
      have : b / 2 < 2 ^ n := by
        have := Nat.pow_succ 2 n
        omega
      simpa [Nat.shiftRight_one] using this
    calc (a <<< (n + 1)) ||| b
        = Nat.bit false (a <<< n) ||| Nat.bit (b.testBit 0) (b >>> 1) := by
          rw [hsh, hrep]
      _ = Nat.bit (false || b.testBit 0) ((a <<< n) ||| (b >>> 1)) :=
          Nat.lor_bit false (a <<< n) (b.testBit 0) (b >>> 1)
      _ = Nat.bit (b.testBit 0) (a * 2 ^ n + b >>> 1) := by
          rw [ih a _ hhalf]; simp
      _ = a * 2 ^ (n + 1) + b := by
          rw [Nat.bit_val]
          have hb0 : (b.testBit 0).toNat = b % 2 := by
            rw [Nat.testBit_zero]
            rcases Nat.mod_two_eq_zero_or_one b with h | h <;> simp [h]
          rw [hb0, Nat.shiftRight_one]
          have hmul : a * 2 ^ (n + 1) = 2 * (a * 2 ^ n) := by
            rw [Nat.pow_succ]; ring
          omega

/-- Under the in-range assumption `badhash` is plain positional packing. -/
theorem badhash_eq (it : EarleyItem) (h : it.InRange) :
    badhash it = it.ruleId * 2 ^ 32 + it.rulePos * 2 ^ 16 + it.origin := by
  obtain ⟨h1, h2, h3⟩ := h
  have e1 : it.ruleId % 2 ^ 64 = it.ruleId := Nat.mod_eq_of_lt (by omega)
  have e2 : it.rulePos % 2 ^ 64 = it.rulePos := Nat.mod_eq_of_lt (by omega)
  have e3 : it.origin % 2 ^ 64 = it.origin := Nat.mod_eq_of_lt (by omega)
  have s1 : it.ruleId <<< 32 = it.ruleId * 2 ^ 32 := Nat.shiftLeft_eq _ _
  have s2 : it.rulePos <<< 16 = it.rulePos * 2 ^ 16 := Nat.shiftLeft_eq _ _
  have m1 : it.ruleId * 2 ^ 32 % 2 ^ 64 = it.ruleId * 2 ^ 32 := by
    apply Nat.mod_eq_of_lt
    calc it.ruleId * 2 ^ 32 < 2 ^ 32 * 2 ^ 32 :=
          (Nat.mul_lt_mul_right (by norm_num)).mpr h1
      _ = 2 ^ 64 := by norm_num
  have m2 : it.rulePos * 2 ^ 16 % 2 ^ 64 = it.rulePos * 2 ^ 16 := by
    apply Nat.mod_eq_of_lt
    calc it.rulePos * 2 ^ 16 < 2 ^ 16 * 2 ^ 16 :=
          (Nat.mul_lt_mul_right (by norm_num)).mpr h2
      _ = 2 ^ 32 := by norm_num
      _ < 2 ^ 64 := by norm_num
  unfold badhash
  rw [e1, e2, e3, s1, s2, m1, m2, Nat.lor_assoc]
  have hinner : (it.rulePos * 2 ^ 16) ||| it.origin
      = it.rulePos * 2 ^ 16 + it.origin := by
    have := shiftLeft_lor_eq_add it.rulePos 16 it.origin h3
    rwa [s2] at this
  rw [hinner]
  have houter := shiftLeft_lor_eq_add it.ruleId 32
    (it.rulePos * 2 ^ 16 + it.origin)
    (by
      have hb : it.rulePos * 2 ^ 16 + it.origin < 2 ^ 16 * 2 ^ 16 := by
        have h5 : (it.rulePos + 1) * 2 ^ 16 ≤ 2 ^ 16 * 2 ^ 16 :=
          Nat.mul_le_mul_right _ h2
        have h6 : it.rulePos * 2 ^ 16 + 2 ^ 16 = (it.rulePos + 1) * 2 ^ 16 := by
          ring
        omega
      calc it.rulePos * 2 ^ 16 + it.origin < 2 ^ 16 * 2 ^ 16 := hb
        _ = 2 ^ 32 := by norm_num)
  rw [s1] at houter
  rw [houter, Nat.add_assoc]

/-- `badhash` is injective on in-range items, as triples. -/
theorem badhash_inj (a b : EarleyItem) (ha : a.InRange) (hb : b.InRange)
    (h : badhash a = badhash b) :
    a.ruleId = b.ruleId ∧ a.rulePos = b.rulePos ∧ a.origin = b.origin := by
  rw [badhash_eq a ha, badhash_eq b hb] at h
  obtain ⟨ha1, ha2, ha3⟩ := ha
  obtain ⟨hb1, hb2, hb3⟩ := hb
  refine ⟨?_, ?_, ?_⟩ <;> omega

/-- Claim C8: for a well-formed state set of in-range items,
`StateSet.Add` returns `true` iff no previously added item shares the
(rule id, dot position, origin) triple; on a duplicate it returns
`false` and leaves both the item list and the membership set unchanged,
and on success it appends the item. -/
theorem StateSet_Add_dedup (s : StateSet) (it : EarleyItem)
    (hwf : s.WF) (hr : it.InRange) (hall : ∀ x ∈ s.items, x.InRange) :
    ((s.Add it).2 = true ↔
      ∀ x ∈ s.items,
        ¬(x.ruleId = it.ruleId ∧ x.rulePos = it.rulePos ∧ x.origin = it.origin)) ∧
    ((s.Add it).2 = false → (s.Add it).1 = s) ∧
    ((s.Add it).2 = true → (s.Add it).1.items = s.items ++ [it]) := by
  by_cases hmem : badhash it ∈ s.itemSet
  · have hAdd : s.Add it = (s, false) := by
      unfold StateSet.Add; rw [if_pos hmem]
    rw [hAdd]
    refine ⟨?_, ⟨fun _ => rfl, fun h => (nomatch h)⟩⟩
    constructor
    · intro h; exact nomatch h
    · intro hno
      exfalso
      rw [hwf, List.mem_map] at hmem
      obtain ⟨x, hx, hxh⟩ := hmem
      obtain ⟨e1, e2, e3⟩ := badhash_inj x it (hall x hx) hr hxh
      exact hno x hx ⟨e1, e2, e3⟩
  · have hAdd : s.Add it =
        ({ items := s.items ++ [it], itemSet := s.itemSet ++ [badhash it] }, true) := by
      unfold StateSet.Add; rw [if_neg hmem]
    rw [hAdd]
    refine ⟨?_, ⟨fun h => (nomatch h), fun _ => rfl⟩⟩
    constructor
    · intro _ x hx htriple
      exfalso
      apply hmem
      rw [hwf, List.mem_map]
      refine ⟨x, hx, ?_⟩
      rw [badhash_eq x (hall x hx), badhash_eq it hr, htriple.1, htriple.2.1,
        htriple.2.2]
    · intro _; rfl

/-- A concrete one-item state set used to witness C8. -/
def c8Set : StateSet := ⟨[⟨3, 1, 2, 0⟩], [badhash ⟨3, 1, 2, 0⟩]⟩

/-- Witness for C8 at concrete inputs: in `c8Set`, adding an item with
the already-present triple (3,1,2) is rejected without change, and
adding the fresh triple (3,1,4) is accepted. -/
theorem StateSet_Add_dedup_witness :
    ((c8Set.Add ⟨3, 1, 2, 7⟩).2 = false ∧ (c8Set.Add ⟨3, 1, 2, 7⟩).1 = c8Set) ∧
      (c8Set.Add ⟨3, 1, 4, 0⟩).2 = true := by
  have hall : ∀ x ∈ c8Set.items, x.InRange := by
    intro x hx
    simp only [c8Set, List.mem_singleton] at hx
    subst hx; decide
  have h := StateSet_Add_dedup c8Set ⟨3, 1, 2, 7⟩ rfl (by decide) hall
  have h2 := StateSet_Add_dedup c8Set ⟨3, 1, 4, 0⟩ rfl (by decide) hall
  have hfalse : (c8Set.Add ⟨3, 1, 2, 7⟩).2 = false := by
    cases hb : (c8Set.Add ⟨3, 1, 2, 7⟩).2 with
    | false => rfl
    | true =>
      exfalso
      have := h.1.mp hb ⟨3, 1, 2, 0⟩ (by simp [c8Set])
      exact this ⟨rfl, rfl, rfl⟩
  refine ⟨⟨hfalse, h.2.1 hfalse⟩, ?_⟩
  cases hb : (c8Set.Add ⟨3, 1, 4, 0⟩).2 with
  | true => rfl
  | false =>
    exfalso
    have hno : ∀ x ∈ c8Set.items,
        ¬(x.ruleId = 3 ∧ x.rulePos = 1 ∧ x.origin = 4) := by
      intro x hx htr
      simp only [c8Set, List.mem_singleton] at hx
      subst hx
      exact absurd htr.2.2 (by decide)
    have := h2.1.mpr hno
    rw [hb] at this
    exact Bool.false_ne_true this

/-! ## Metric index (`indexer` in `src/unnamed/part_012`) -/

/-- `labels.MetricName` ("__name__"). -/
def metricNameLabel : String := "__name__"

/-- A parsed series as consumed by `UpdateMetric`: its label set
(name → value).  The timestamp and sample value are never read by the
indexer. -/
structure ParsedSeries where
  labels : List (String × String)

/-- Go map lookup `ls[k]` on the label map. -/
def lookupLabel (ls : List (String × String)) (k : String) : Option String :=
  (ls.find? (fun p => p.1 == k)).map (·.2)

/-- The indexer state: `store map[string]map[string]sets.String` (metric →
label → value set) and the hash-membership filter `metricBloomFilter
sets.Uint64`.  Maps/sets are modelled as association lists; only their
key sets and stored values are observable. -/
structure Indexer where
  store : List (String × List (String × List String))
  metricBloomFilter : List Nat

/-- `NewIndex()`. -/
def NewIndex : Indexer := ⟨[], []⟩

/-- `sets.String.Insert` on a value set. -/
def insertVal (vals : List String) (v : String) : List String :=
  if v ∈ vals then vals else vals ++ [v]

/-- One iteration of `UpdateMetric`'s label loop for a non-name label:
ensure `store[n][l]` exists and insert `v`. -/
def upsertLabel (dims : List (String × List String)) (l v : String) :
    List (String × List String) :=
  if dims.any (·.1 == l) then
    dims.map (fun p => if p.1 == l then (p.1, insertVal p.2 v) else p)
  else dims ++ [(l, [v])]

/-- The label loop of `UpdateMetric`: every label except the metric-name
label is inserted.  (Go iterates the map in unspecified order; the
resulting store is order-independent because per-label updates touch
disjoint entries, and no claim depends on entry order.) -/
def insertSeriesLabels (dims : List (String × List String))
    (ls : List (String × String)) : List (String × List String) :=
  ls.foldl (fun acc p =>
    if p.1 == metricNameLabel then acc else upsertLabel acc p.1 p.2) dims

/-- `store[n] = map{}` creation plus the label loop. -/
def upsertMetric (store : List (String × List (String × List String)))
    (n : String) (ls : List (String × String)) :
    List (String × List (String × List String)) :=
  let withMetric := if store.any (·.1 == n) then store else store ++ [(n, [])]
  withMetric.map (fun p => if p.1 == n then (p.1, insertSeriesLabels p.2 ls) else p)

/-- `indexer.UpdateMetric` (`src/unnamed/part_012` lines 58-89).  The
label-set hash function is the external `labels.Labels.Hash`, passed as
a parameter.  Logging through the debug sink is a side effect outside
the state and is not modelled. -/
def UpdateMetric (hash : List (String × String) → Nat) (i : Indexer)
    (m : ParsedSeries) : Indexer :=
  let h := hash m.labels
  if h ∈ i.metricBloomFilter then i
  else
    match lookupLabel m.labels metricNameLabel with
    | none => i
    | some n =>
      { metricBloomFilter := i.metricBloomFilter ++ [h],
        store := upsertMetric i.store n m.labels }

/-- Claim C10: a series whose label set lacks `__name__` leaves the
indexer completely unchanged — the store gains no entry and the
membership filter does not record the series' hash — and the operation
is total (never fatal). -/
theorem UpdateMetric_missing_name (hash : List (String × String) → Nat)
    (i : Indexer) (m : ParsedSeries)
    (h : lookupLabel m.labels metricNameLabel = none) :
    UpdateMetric hash i m = i := by
  unfold UpdateMetric
  by_cases hb : hash m.labels ∈ i.metricBloomFilter
  · simp [hb]
  · simp [hb, h]

/-- Witness for C10: a concrete series carrying only an `instance`
label is a no-op on the empty index. -/
theorem UpdateMetric_missing_name_witness :
    lookupLabel [("instance", "a")] metricNameLabel = none ∧
      UpdateMetric (fun _ => 0) NewIndex ⟨[("instance", "a")]⟩ = NewIndex := by
  refine ⟨by decide, ?_⟩
  exact UpdateMetric_missing_name (fun _ => 0) NewIndex ⟨[("instance", "a")]⟩ (by decide)

/-! ## The completer front end: cursor slicing and `getPrefix`
(`promq/autocomplete/earley/completer_test.go` lines 687-781,
`src/unnamed/part_015` lines 88-153)

Go strings are byte slices; `[]rune(s)` decodes UTF-8.  `getPrefix`
iterates `i` over BYTE indices from `len(query)-1` down to `0` but reads
`[]rune(query)[i]` — an index into the RUNE slice.  A query string is
modelled as its byte list; `none` models a runtime panic
(index-out-of-range or slice-out-of-range). -/

/-- UTF-8 decoding of a byte list into code points, as Go's `[]rune`
conversion.  Valid sequences are decoded exactly; malformed leading or
truncated sequences yield U+FFFD (continuation-byte validation is not
modelled — no claim touches malformed multi-byte input). -/
def utf8Decode : List Nat → List Nat
  | [] => []
  | [b] => if b < 0x80 then [b] else [0xFFFD]
  | [b, b2] =>
    if b < 0x80 then b :: utf8Decode [b2]
    else if b < 0xC0 then 0xFFFD :: utf8Decode [b2]
    else if b < 0xE0 then [(b % 0x20) * 0x40 + b2 % 0x40]
    else [0xFFFD]
  | [b, b2, b3] =>
    if b < 0x80 then b :: utf8Decode [b2, b3]
    else if b < 0xC0 then 0xFFFD :: utf8Decode [b2, b3]
    else if b < 0xE0 then ((b % 0x20) * 0x40 + b2 % 0x40) :: utf8Decode [b3]
    else if b < 0xF0 then [(b % 0x10) * 0x1000 + (b2 % 0x40) * 0x40 + b3 % 0x40]
    else [0xFFFD]
  | b :: b2 :: b3 :: b4 :: rest =>
    if b < 0x80 then b :: utf8Decode (b2 :: b3 :: b4 :: rest)
    else if b < 0xC0 then 0xFFFD :: utf8Decode (b2 :: b3 :: b4 :: rest)
    else if b < 0xE0 then
      ((b % 0x20) * 0x40 + b2 % 0x40) :: utf8Decode (b3 :: b4 :: rest)
    else if b < 0xF0 then
      ((b % 0x10) * 0x1000 + (b2 % 0x40) * 0x40 + b3 % 0x40) :: utf8Decode (b4 :: rest)
    else
      ((b % 8) * 0x40000 + (b2 % 0x40) * 0x1000 + (b3 % 0x40) * 0x40 + b4 % 0x40)
        :: utf8Decode rest

/-- The byte (= rune) values of `PromQLTokenSeparators` = " []{}()=!~,". -/
def promQLSeparatorBytes : List Nat := [32, 91, 93, 123, 125, 40, 41, 61, 33, 126, 44]

/-- The loop of `getPrefix` from byte index `i` downwards: read
`[]rune(query)[i]` (panic — `none` — when `i` is outside the rune
slice), return the byte suffix `query[i+1:]` on a separator, else
continue; falling off the loop returns the whole query. -/
def getPrefixLoop (query : List Nat) : Nat → Option (List Nat)
  | 0 =>
    let runes := utf8Decode query
    if h : 0 < runes.length then
      if runes.get ⟨0, h⟩ ∈ promQLSeparatorBytes then some (query.drop 1)
      else some query
    else none
  | i + 1 =>
    let runes := utf8Decode query
    if h : i + 1 < runes.length then
      if runes.get ⟨i + 1, h⟩ ∈ promQLSeparatorBytes then some (query.drop (i + 2))
      else getPrefixLoop query i
    else none

/-- `getPrefix`. -/
def getPrefixGo (query : List Nat) : Option (List Nat) :=
  if query.length = 0 then some [] else getPrefixLoop query (query.length - 1)

/-- `q := query[0:pos]` at the top of `GenerateSuggestions`: Go slicing
panics when the cursor exceeds the string's byte length. -/
def sliceToCursor (query : List Nat) (pos : Nat) : Option (List Nat) :=
  if pos ≤ query.length then some (query.take pos) else none

/-- The prefix-extraction front end of `GenerateSuggestions`:
`q := query[0:pos]; autocompletePrefix := getPrefix(q)`. -/
def suggestionsFrontEnd (query : List Nat) (pos : Nat) : Option (List Nat) :=
  (sliceToCursor query pos).bind getPrefixGo

/-- Claim C1 (code bug): `GenerateSuggestions` is NOT total.  At the
concrete query "é" (bytes 0xC3 0xA9) with cursor 2, `getPrefix` reads
`[]rune(query)[1]` while the rune slice has length 1 — an
index-out-of-range panic; and any cursor beyond the byte length panics
in `query[0:pos]`.  On ASCII input the function behaves normally
(third conjunct: query "a{b" yields prefix "b"). -/
theorem generateSuggestions_panics :
    suggestionsFrontEnd [0xC3, 0xA9] 2 = none ∧
      suggestionsFrontEnd [97] 5 = none ∧
      suggestionsFrontEnd [97, 123, 98] 3 = some [98] := by
  refine ⟨rfl, rfl, rfl⟩

/-! ## Completion contexts under scan
(`Earley.scan` in `src/pq/autocomplete/earley/earley.go` lines 84-101 and
`earley_test.go` lines 377-394; `completionContext.BuildContext` in
`src/pq/autocomplete/completer.go` lines 83-93)

Go context records are heap cells shared between items through pointers.
The store is a list of cells; an item's `ctx *completionContext` is
`Option Nat` — an index into the store (`none` = nil). -/

/-- `completionContext`: optional current metric, optional current
label, set of observed label values. -/
structure CompletionCtx where
  metric : Option String
  metricLabel : Option String
  labelValues : List String
  deriving DecidableEq

/-- `completionContext.BuildContext`: update the record from the
scanned terminal's (sub)type and the token value.  `STRING` unions the
value into the observed-value set. -/
def buildContext (c : CompletionCtx) (tt : Option TokenType) (val : String) :
    CompletionCtx :=
  match tt with
  | some TokenType.METRIC_ID => { c with metric := some val }
  | some TokenType.METRIC_LABEL_SUBTYPE => { c with metricLabel := some val }
  | some TokenType.STRING =>
    { c with labelValues :=
        if val ∈ c.labelValues then c.labelValues else val :: c.labelValues }
  | _ => c

/-- The context manipulation inside `Earley.scan`:

    ctx := &completionContext{}
    if state.ctx != nil { ctx = state.ctx }
    ctx.BuildContext(state.GetRightSymbolTypeByRulePos(), &token)
    nextItem := newScanItem(..., ctx)

Returns the updated store and the `ctx` index attached to the scanned
item.  With a nil parent context a fresh cell is allocated; with a
non-nil parent the PARENT'S cell itself is written through the shared
pointer. -/
def scanCtxStep (store : List CompletionCtx) (parentCtx : Option Nat)
    (tt : Option TokenType) (val : String) : List CompletionCtx × Nat :=
  match parentCtx with
  | none => (store ++ [buildContext ⟨none, none, []⟩ tt val], store.length)
  | some p => (store.set p (buildContext (store.getD p ⟨none, none, []⟩) tt val), p)

/-- Counterexample to claim C3: scanning from a parent item whose
context record is cell 0 (inserted into a state set earlier) MUTATES
that very cell — the metric name is written into the parent's existing
record in place — and the derived item shares the same cell instead of
a fresh one (the store does not grow). -/
theorem scan_mutates_parent_context :
    scanCtxStep [⟨none, none, []⟩] (some 0) (some TokenType.METRIC_ID) "m"
        = ([⟨some "m", none, []⟩], 0) ∧
      (⟨some "m", none, []⟩ : CompletionCtx) ≠ ⟨none, none, []⟩ := by
  exact ⟨rfl, by simp⟩

/-- Amended C3: the scan operation creates a fresh context record only
when the parent item carries none; when the parent has a context
record, scan updates that record in place (the parent's cell is
overwritten) and the derived item shares it — the store length is
unchanged and the returned pointer is the parent's. -/
theorem scanCtxStep_characterization (store : List CompletionCtx)
    (tt : Option TokenType) (val : String) (p : Nat) (hp : p < store.length) :
    (scanCtxStep store none tt val
        = (store ++ [buildContext ⟨none, none, []⟩ tt val], store.length)) ∧
      (scanCtxStep store (some p) tt val).2 = p ∧
      (scanCtxStep store (some p) tt val).1.length = store.length ∧
      (scanCtxStep store (some p) tt val).1.getD p ⟨none, none, []⟩
        = buildContext (store.getD p ⟨none, none, []⟩) tt val := by
  refine ⟨rfl, rfl, by simp [scanCtxStep], ?_⟩
  simp [scanCtxStep, List.getD, List.getElem?_set, hp]

/-- Witness for the amended C3 at a concrete store. -/
theorem scanCtxStep_characterization_witness :
    (0 : Nat) < ([⟨none, none, []⟩] : List CompletionCtx).length ∧
      (scanCtxStep [⟨none, none, []⟩] (some 0) (some TokenType.METRIC_ID) "m").2 = 0 := by
  refine ⟨by decide, ?_⟩
  exact (scanCtxStep_characterization [⟨none, none, []⟩]
    (some TokenType.METRIC_ID) "m" 0 (by decide)).2.1

/-! ## Lexer adapter (`promq/autocomplete/earley/luthor.go` lines 174-215)

The inner lexer is the external `prometheus/promql/parser.Lex`; it is
modelled as an oracle `List Nat → List LexItem` mapping a (sub-)query's
byte list to the stream of items `NextItem` would yield, in order.  Item
positions are byte offsets relative to the (sub-)query, and
`Item.PositionRange().End = Pos + len(Val)` in bytes, as in the
Prometheus source.  The repo-side classification
`mapParserItemTypeToTokhanType` is folded into the oracle's `okT`
payload — C5 and C6 are independent of the classification. -/

/-- The discriminant of an inner-lexer item: end-of-input, error, or a
good token classified as `t`. -/
inductive LexTy where
  | eofT
  | errT
  | okT (t : TokenType)
  deriving DecidableEq

/-- An inner-lexer item: type, byte position within the (sub-)query,
literal value (byte list). -/
structure LexItem where
  typ : LexTy
  pos : Nat
  val : List Nat
  deriving DecidableEq

/-- `Tokhan` (luthor.go): value, completion token type, start/end byte
offsets.  The `ItemType` pass-through and the private `_index` are
dropped: the Earley engine reads only `Type`, and the claims compare
`Val`/`StartPos`/`EndPos`. -/
structure Tokhan where
  Val : List Nat
  TokType : TokenType    -- `Type` in Go; `Type` is reserved in Lean
  StartPos : Nat
  EndPos : Nat
  deriving DecidableEq

/-- `createTokenFromItem(item, offset)`: the start position is shifted
by `offset`, while the end position is `item.PositionRange().End` — the
item's relative position plus its byte length, NOT shifted. -/
def createTokenFromItem (item : LexItem) (offset : Nat) (t : TokenType) : Tokhan :=
  { Val := item.val
    TokType := t
    StartPos := item.pos + offset
    EndPos := item.pos + item.val.length }

/-- Outcome of the `for { NextItem }` loop body of
`extractTokensWithOffset`: reached EOF (token list closed with the EOF
token), aborted on an error with `i == 0`, or must re-lex the suffix at
`pos` after the accumulated good tokens. -/
inductive LexOutcome where
  | done (toks : List Tokhan)
  | abort
  | recurse (toks : List Tokhan) (pos : Nat)

/-- Walk the oracle's item stream with the good-token counter `i`:
EOF appends its token and stops; an error stops (abort when `i = 0`,
else re-lex request at the error's position); a good token is appended
and the walk continues.  An oracle stream that ends without a
terminator corresponds to a blocked `NextItem`; it yields `abort`
(excluded by the oracle well-formedness hypothesis below). -/
def walkItems (offset : Nat) : List LexItem → Nat → LexOutcome
  | [], _ => .abort
  | item :: rest, i =>
    match item.typ with
    | .eofT => .done [createTokenFromItem item offset TokenType.EOF]
    | .errT => if i = 0 then .abort else .recurse [] item.pos
    | .okT t =>
      match walkItems offset rest (i + 1) with
      | .done ts => .done (createTokenFromItem item offset t :: ts)
      | .abort => .abort
      | .recurse ts p => .recurse (createTokenFromItem item offset t :: ts) p

/-- The good tokens accumulated before an abort (`words` at the
`break`; empty when the error is the very first item). -/
def walkGood (offset : Nat) : List LexItem → List Tokhan
  | [] => []
  | item :: rest =>
    match item.typ with
    | .eofT => []
    | .errT => []
    | .okT t => createTokenFromItem item offset t :: walkGood offset rest

/-- `extractTokensWithOffset(query, offset)` with explicit fuel for the
self-recursion on the suffix (the Go recursion consumes at least one
byte per level for any real lexer; `extractWordsGo` supplies
`query.length + 1`, proven sufficient below).  On an abort the
accumulated good tokens of the current level are returned without an
EOF token, exactly as the Go `break`/`return words` paths do.  Note the
recursive call passes `int(currItem.Pos)` — the error position relative
to the CURRENT sub-query — as the new offset. -/
def extractLoop (oracle : List Nat → List LexItem) :
    Nat → List Nat → Nat → List Tokhan
  | 0, _, _ => []
  | fuel + 1, query, offset =>
    match walkItems offset (oracle query) 0 with
    | .done ts => ts
    | .abort => walkGood offset (oracle query)
    | .recurse ts pos => ts ++ extractLoop oracle fuel (query.drop pos) pos

/-- `extractWords(query)`. -/
def extractWordsGo (oracle : List Nat → List LexItem) (query : List Nat) :
    List Tokhan :=
  extractLoop oracle (query.length + 1) query 0

/-- A stream on which a lex of (sub-)query `q` behaves well: the items
reach an EOF, or reach an error that is preceded by at least one good
token and whose position points strictly inside `q` (the real inner
lexer only errors at the offset of an offending byte it has reached).
The counter `i` mirrors the good-token counter of the Go loop. -/
def StreamOK (q : List Nat) : List LexItem → Nat → Prop
  | [], _ => False
  | item :: rest, i =>
    match item.typ with
    | .eofT => True
    | .errT => 0 < i ∧ 1 ≤ item.pos ∧ item.pos ≤ q.length
    | .okT _ => StreamOK q rest (i + 1)

/-- Oracle well-formedness: every (sub-)query's stream is well-behaved.
This in particular excludes error-first streams — the situation of the
C5 counterexample. -/
def OracleWF (oracle : List Nat → List LexItem) : Prop :=
  ∀ q, StreamOK q (oracle q) 0

/-- On a well-behaved stream the walk either finishes with a token list
ending in the EOF token, or requests a re-lex at a position strictly
inside the query. -/
theorem walkItems_cases (q : List Nat) (offset : Nat) :
    ∀ (items : List LexItem) (i : Nat), StreamOK q items i →
      (∃ ts, walkItems offset items i = .done ts ∧ ts ≠ [] ∧
        ts.getLast?.map Tokhan.TokType = some TokenType.EOF) ∨
      (∃ ts pos, walkItems offset items i = .recurse ts pos ∧
        1 ≤ pos ∧ pos ≤ q.length) := by
  intro items
  induction items with
  | nil => intro i h; exact absurd h (by simp [StreamOK])
  | cons item rest ih =>
    intro i h
    match htyp : item.typ with
    | .eofT =>
      left
      refine ⟨[createTokenFromItem item offset TokenType.EOF], ?_, by simp,
        by simp [createTokenFromItem]⟩
      simp [walkItems, htyp]
    | .errT =>
      right
      have h' : 0 < i ∧ 1 ≤ item.pos ∧ item.pos ≤ q.length := by
        simpa [StreamOK, htyp] using h
      refine ⟨[], item.pos, ?_, h'.2.1, h'.2.2⟩
      simp [walkItems, htyp]
      omega
    | .okT t =>
      have h' : StreamOK q rest (i + 1) := by
        simpa [StreamOK, htyp] using h
      rcases ih (i + 1) h' with ⟨ts, hw, hne, hlast⟩ | ⟨ts, pos, hw, h1, h2⟩
      · left
        refine ⟨createTokenFromItem item offset t :: ts, ?_, by simp, ?_⟩
        · simp [walkItems, htyp, hw]
        · obtain ⟨hd, tl, rfl⟩ := List.exists_cons_of_ne_nil hne
          simpa using hlast
      · right
        refine ⟨createTokenFromItem item offset t :: ts, pos, ?_, h1, h2⟩
        simp [walkItems, htyp, hw]

/-- The core of the amended C5: with a well-formed oracle and enough
fuel, the lexer's result is non-empty and ends with the EOF token. -/
theorem extractLoop_ends_with_eof (oracle : List Nat → List LexItem)
    (hwf : OracleWF oracle) :
    ∀ (fuel : Nat) (query : List Nat) (offset : Nat), query.length < fuel →
      (extractLoop oracle fuel query offset).getLast?.map Tokhan.TokType
        = some TokenType.EOF := by
  intro fuel
  induction fuel with
  | zero => intro query offset h; omega
  | succ fuel ih =>
    intro query offset h
    rcases walkItems_cases query offset (oracle query) 0 (hwf query) with
      ⟨ts, hw, hne, hlast⟩ | ⟨ts, pos, hw, h1, h2⟩
    · simp [extractLoop, hw, hlast]
    · have hlen : (query.drop pos).length < fuel := by
        simp only [List.length_drop]
        omega
      have hinner := ih (query.drop pos) pos hlen
      have hinner_ne : extractLoop oracle fuel (query.drop pos) pos ≠ [] := by
        intro he
        rw [he] at hinner
        simp at hinner
      simp only [extractLoop, hw]
      rw [List.getLast?_append_of_ne_nil _ hinner_ne]
      exact hinner

/-- An inner-lexer behavior that reports an error as its very first
item (the real Prometheus 2.16 lexer does this e.g. on a query starting
with an unsupported character such as `@`). -/
def errFirstOracle : List Nat → List LexItem := fun _ => [⟨.errT, 0, []⟩]

/-- Counterexample to claim C5: when the inner lexer errors on the very
first token, `extractWords` returns the EMPTY token list — not a list
consisting of a trailing end-of-input sentinel.  The `i == 0` branch of
`extractTokensWithOffset` breaks out of the loop before the EOF token
is ever appended. -/
theorem extractWords_error_first_counterexample :
    extractWordsGo errFirstOracle [97] = [] ∧
      (extractWordsGo errFirstOracle [97]).getLast?.map Tokhan.TokType
        ≠ some TokenType.EOF := by
  exact ⟨rfl, by decide⟩

/-- Amended claim C5: for every input whose (recursive) inner lexing is
well-behaved — every (sub-)lex reaches EOF or an error that is preceded
by at least one good token and positioned inside the sub-query — the
token list is non-empty and its last element is the end-of-input
sentinel.  When the very first item is an error the result is instead
empty (see the counterexample). -/
theorem extractWords_ends_with_eof (oracle : List Nat → List LexItem)
    (hwf : OracleWF oracle) (query : List Nat) :
    (extractWordsGo oracle query).getLast?.map Tokhan.TokType
      = some TokenType.EOF := by
  unfold extractWordsGo
  exact extractLoop_ends_with_eof oracle hwf (query.length + 1) query 0 (by omega)

/-- The trivial always-EOF inner lexer used to witness the amended C5. -/
def eofOracle : List Nat → List LexItem := fun _ => [⟨.eofT, 0, []⟩]

/-- Witness for the amended C5 at a concrete oracle and query. -/
theorem extractWords_ends_with_eof_witness :
    OracleWF eofOracle ∧
      (extractWordsGo eofOracle [97]).getLast?.map Tokhan.TokType
        = some TokenType.EOF :=
  ⟨fun _ => trivial, extractWords_ends_with_eof eofOracle (fun _ => trivial) [97]⟩

/-- An inner-lexer behavior with an error after one good token
(recovery in the style of the `start(label='value)end` comment in the
source): on the 2-byte query the lexer yields a 1-byte token and then
errors at offset 1; the suffix re-lex yields a 1-byte token and EOF. -/
def errAtOneOracle : List Nat → List LexItem := fun q =>
  if q.length = 2 then [⟨.okT TokenType.ID, 0, [97]⟩, ⟨.errT, 1, []⟩]
  else [⟨.okT TokenType.ID, 0, [98]⟩, ⟨.eofT, 1, []⟩]

/-- Claim C6 (code bug): tokens from the recursive re-lex of the suffix
at offset k=1 carry the absolute start offset (`StartPos = 1`) but NOT
the absolute end offset: `createTokenFromItem` adds `offset` to
`item.Pos` and forgets to add it to `item.PositionRange().End`, so the
re-lexed token covering original byte 1 has `EndPos = 1` instead of 2;
the sentinel similarly gets `EndPos = 1 < StartPos = 2`. -/
theorem extractTokens_end_not_shifted :
    extractWordsGo errAtOneOracle [97, 98] =
        [⟨[97], TokenType.ID, 0, 1⟩, ⟨[98], TokenType.ID, 1, 1⟩,
          ⟨[], TokenType.EOF, 2, 1⟩] ∧
      ((⟨[98], TokenType.ID, 1, 1⟩ : Tokhan).EndPos
        ≠ (⟨[98], TokenType.ID, 1, 1⟩ : Tokhan).StartPos + ([98] : List Nat).length) := by
  exact ⟨rfl, by decide⟩

/-! ## Prefix filtering (`pq/autocomplete/filter.go` lines 30-67) and the
suggestion-mapping stage of `GenerateSuggestions`
(`promq/autocomplete/earley/completer_test.go` lines 687-766)

`sets.String` is modelled as a plain list of elements; its sorted
`List()` enumeration is `setList`.  Only membership and the sorted
enumeration are observable. -/

/-- Go's `<` on strings: lexicographic byte-wise comparison. -/
def listLtGo : List Nat → List Nat → Bool
  | [], [] => false
  | [], _ :: _ => true
  | _ :: _, [] => false
  | a :: as, b :: bs =>
    if a < b then true else if b < a then false else listLtGo as bs

def strLtGo (a b : String) : Bool :=
  listLtGo (a.data.map Char.toNat) (b.data.map Char.toNat)

/-- Ascending insertion with deduplication (one step of building a
sorted set enumeration). -/
def insertAsc (x : String) : List String → List String
  | [] => [x]
  | y :: ys =>
    if x = y then y :: ys
    else if strLtGo x y then x :: y :: ys
    else y :: insertAsc x ys

/-- `sets.String.List()`: sorted, deduplicated enumeration. -/
def setList (l : List String) : List String :=
  l.foldl (fun acc x => insertAsc x acc) []

/-- ASCII case folding of `strings.ToLower` (the static tables and all
queries in the claims are ASCII; full Unicode folding is not modelled). -/
def charToLower (c : Char) : Char :=
  if 65 ≤ c.toNat ∧ c.toNat ≤ 90 then Char.ofNat (c.toNat + 32) else c

def toLowerGo (s : String) : String := ⟨s.data.map charToLower⟩

/-- `strings.HasPrefix(s, pfx)` over the character data. -/
def hasPrefixGo (s pfx : String) : Bool := pfx.data.isPrefixOf s.data

/-- `filterSet`: iterate the set's (sorted) enumeration, case-fold item
and pattern when `ignoreCase`, and insert the (possibly folded) item
when the inclusion function accepts it.  Note the Go quirk preserved
here: with `ignoreCase` the FOLDED item is inserted into the result. -/
def filterSetGo (auto : List String) (sub : String) (ignoreCase : Bool)
    (incl : String → String → Bool) : List String :=
  if sub = "" then auto
  else
    let subF := if ignoreCase then toLowerGo sub else sub
    (setList auto).foldl (fun ret item =>
      let itemF := if ignoreCase then toLowerGo item else item
      if incl itemF subF then insertVal ret itemF else ret) []

/-- `FilterPrefix`: keep the strings starting with `pfx`
(`strings.HasPrefix(item, sub)`). -/
def FilterPrefixGo (stringSet : List String) (pfx : String) (ignoreCase : Bool) :
    List String :=
  if pfx = "" then stringSet
  else filterSetGo stringSet pfx ignoreCase (fun item sub => hasPrefixGo item sub)

/-- A suggestion (`matchResult`). -/
structure Match where
  Value : String
  Kind : String
  Detail : String
  deriving DecidableEq

/-- A `ContextualToken` as consumed by the mapping loop: the suggested
token type plus the observable part of its completion context (current
metric / current label). -/
structure ContextualToken where
  tokenType : TokenType
  ctxMetric : Option String
  ctxLabel : Option String
  deriving DecidableEq

/-- The metric index behind the completer (`QueryIndex`): metric names,
label keys per metric, label values per metric and label. -/
structure QueryIndex where
  metricNames : List String
  dims : String → List String
  vals : String → String → List String

/-- Static description tables of the grammar file.  (Descriptions are
carried verbatim; Go map iteration is always via sorted `List()`.) -/
def aggregators : List (String × String) :=
  [("sum", "calculate sum over dimensions"),
   ("max", "select maximum over dimensions"),
   ("min", "select minimum over dimensions"),
   ("avg", "calculate the average over dimensions"),
   ("stddev", "calculate population standard deviation over dimensions"),
   ("stdvar", "calculate population standard variance over dimensions"),
   ("count", "count number of elements in the vector"),
   ("count_values", "count number of elements with the same value"),
   ("bottomk", "smallest k elements by sample value"),
   ("topk", "largest k elements by sample value"),
   ("quantile", "calculate φ-quantile (0 ≤ φ ≤ 1) over dimensions")]

def aggregateKeywords : List (String × String) := [("by", ""), ("without", "")]

def keywordsTable : List (String × String) := [("bool", ""), ("offset", "")]

def arithmaticOperators : List (String × String) :=
  [("+", ""), ("-", ""), ("*", ""), ("/", "")]

def logicalOperators : List (String × String) :=
  [("and", "intersection"), ("or", "union"), ("unless", "complement")]

def labelMatchOperators : List (String × String) :=
  [("=", "match equal"), ("!=", "match not equal"), ("=~", "match regexp"),
   ("!~", "match not regexp")]

def timeUnits : List (String × String) :=
  [("s", "seconds"), ("m", "minuets"), ("h", "hours"), ("d", "days"),
   ("w", "weeks"), ("y", "years")]

/-- Go map lookup with the empty string for a missing key. -/
def tblGet (tbl : List (String × String)) (k : String) : String :=
  ((tbl.find? (·.1 == k)).map (·.2)).getD ""

/-- Keys of a description table (`sets.StringKeySet`). -/
def tblKeys (tbl : List (String × String)) : List String := tbl.map (·.1)

/-- `strconv.Quote`, escaping not modelled (no claim quotes a value
containing special characters). -/
def enquote (s : String) : String := "\"" ++ s ++ "\""

/-- `strconv.Atoi` succeeds: an optional sign followed by one or more
digits (overflow not modelled). -/
def atoiOk (s : String) : Bool :=
  let t : List Char :=
    if hasPrefixGo s "+" || hasPrefixGo s "-" then s.data.drop 1 else s.data
  !t.isEmpty && t.all (·.isDigit)

/-- `strings.Join(l, ",")`. -/
def joinComma (l : List String) : String := String.intercalate "," l

/-- One arm of the `switch s.TokenType` of `GenerateSuggestions`: the
concrete matches contributed by one suggested token type.  Every
`FilterPrefix` call passes `ignoreCase = false`, as in the source. -/
def matchesFor (idx : QueryIndex) (pfx : String) (s : ContextualToken) :
    List Match :=
  match s.tokenType with
  | TokenType.METRIC_LABEL_SUBTYPE =>
    match s.ctxMetric with
    | some metricName =>
      (setList (FilterPrefixGo (idx.dims metricName) pfx false)).map (fun d =>
        ⟨d, "metric-label",
          joinComma (setList ((idx.vals metricName d).map enquote))⟩)
    | none => []
  | TokenType.METRIC_ID =>
    (setList (FilterPrefixGo idx.metricNames pfx false)).map (fun m =>
      ⟨m, "metric-id", joinComma (setList (idx.dims m))⟩)
  | TokenType.STRING =>
    match s.ctxMetric, s.ctxLabel with
    | some metricName, some labelName =>
      (setList (FilterPrefixGo ((idx.vals metricName labelName).map enquote)
          pfx false)).map (fun m =>
        ⟨m, "metric-id", joinComma (setList (idx.dims m))⟩)
    | _, _ => []
  | TokenType.AGGR_OP =>
    (setList (FilterPrefixGo (tblKeys aggregators) pfx false)).map (fun ao =>
      ⟨ao, "aggr-operation", tblGet aggregators ao⟩)
  | TokenType.AGGR_KW =>
    (setList (FilterPrefixGo (tblKeys aggregateKeywords) pfx false)).map (fun ao =>
      ⟨ao, "aggr-keyword", tblGet aggregateKeywords ao⟩)
  | TokenType.ARITHMETIC =>
    (setList (FilterPrefixGo (tblKeys arithmaticOperators) pfx false)).map (fun ao =>
      ⟨ao, "arithmetic", tblGet arithmaticOperators ao⟩)
  | TokenType.LOGICAL =>
    (setList (FilterPrefixGo (tblKeys logicalOperators) pfx false)).map (fun ao =>
      ⟨ao, "logical", tblGet logicalOperators ao⟩)
  | TokenType.LABELMATCH =>
    (setList (FilterPrefixGo (tblKeys labelMatchOperators) pfx false)).map (fun ao =>
      ⟨ao, "label-match", tblGet labelMatchOperators ao⟩)
  | TokenType.OFFSET_KW => [⟨"offset", "keyword", tblGet keywordsTable "offset"⟩]
  | TokenType.BOOL_KW => [⟨"bool", "keyword", tblGet keywordsTable "bool"⟩]
  | TokenType.DURATION =>
    if atoiOk pfx then
      (setList (tblKeys timeUnits)).map (fun ao =>
        ⟨ao, "time-unit", tblGet timeUnits ao⟩)
    else []
  | _ => []

/-- Descending insertion by `Value` (the final state of the repeated
`sort.Slice(matches, >)`; Go's sort is unstable, so order among equal
values is unspecified — claims compare membership). -/
def insertDesc (m : Match) : List Match → List Match
  | [] => [m]
  | y :: ys =>
    if strLtGo y.Value m.Value then m :: y :: ys else y :: insertDesc m ys

def sortMatchesDesc (l : List Match) : List Match :=
  l.foldl (fun acc x => insertDesc x acc) []

/-- The mapping stage of `GenerateSuggestions`: concatenate the
per-suggestion matches and sort descending by value. -/
def generateSuggestionsGo (idx : QueryIndex) (pfx : String)
    (suggestions : List ContextualToken) : List Match :=
  sortMatchesDesc (suggestions.foldl (fun acc s => acc ++ matchesFor idx pfx s) [])

theorem mem_insertVal (l : List String) (x y : String) :
    y ∈ insertVal l x ↔ y ∈ l ∨ y = x := by
  unfold insertVal
  split
  · constructor
    · exact fun h => Or.inl h
    · rintro (h | rfl)
      · exact h
      · assumption
  · simp

theorem mem_insertAsc (x y : String) : ∀ l : List String,
    y ∈ insertAsc x l ↔ y = x ∨ y ∈ l := by
  intro l
  induction l with
  | nil => simp [insertAsc]
  | cons z zs ih =>
    unfold insertAsc
    split
    · rename_i hzx
      subst hzx
      simp only [List.mem_cons]
      tauto
    · split
      · simp only [List.mem_cons]
      · simp only [List.mem_cons, ih]
        tauto

theorem mem_setList_aux (y : String) : ∀ (l acc : List String),
    y ∈ l.foldl (fun a x => insertAsc x a) acc ↔ y ∈ acc ∨ y ∈ l := by
  intro l
  induction l with
  | nil => simp
  | cons z zs ih =>
    intro acc
    simp only [List.foldl_cons, ih, mem_insertAsc, List.mem_cons]
    tauto

theorem mem_setList (l : List String) (y : String) : y ∈ setList l ↔ y ∈ l := by
  unfold setList
  rw [mem_setList_aux]
  simp

theorem mem_filterFold (pred : String → Bool) (y : String) :
    ∀ (items acc : List String),
      y ∈ items.foldl (fun ret item => if pred item then insertVal ret item else ret) acc
        ↔ y ∈ acc ∨ (y ∈ items ∧ pred y = true) := by
  intro items
  induction items with
  | nil => simp
  | cons z zs ih =>
    intro acc
    simp only [List.foldl_cons]
    by_cases hz : pred z = true
    · rw [hz]
      simp only [if_true, ih, mem_insertVal, List.mem_cons]
      constructor
      · rintro ((h | rfl) | h)
        · exact Or.inl h
        · exact Or.inr ⟨Or.inl rfl, hz⟩
        · exact Or.inr ⟨Or.inr h.1, h.2⟩
      · rintro (h | ⟨(rfl | h), hp⟩)
        · exact Or.inl (Or.inl h)
        · exact Or.inl (Or.inr rfl)
        · exact Or.inr ⟨h, hp⟩
    · rw [Bool.not_eq_true] at hz
      rw [hz]
      simp only [Bool.false_eq_true, if_false, ih, List.mem_cons]
      constructor
      · rintro (h | h)
        · exact Or.inl h
        · exact Or.inr ⟨Or.inr h.1, h.2⟩
      · rintro (h | ⟨(rfl | h), hp⟩)
        · exact Or.inl h
        · rw [hz] at hp; exact absurd hp (by simp)
        · exact Or.inr ⟨h, hp⟩

/-- Case-sensitive characterization of the default filtering path:
with `ignoreCase = false` — the value `GenerateSuggestions` passes at
every call site — a candidate is kept iff the typed prefix is a
case-sensitive prefix of it. -/
theorem FilterPrefixGo_mem (stringSet : List String) (p x : String) (hp : p ≠ "") :
    x ∈ FilterPrefixGo stringSet p false ↔ x ∈ stringSet ∧ hasPrefixGo x p = true := by
  unfold FilterPrefixGo filterSetGo
  rw [if_neg hp, if_neg hp]
  simp only [Bool.false_eq_true, if_false]
  rw [mem_filterFold (fun item => hasPrefixGo item p) x (setList stringSet) []]
  simp [mem_setList]

theorem mem_insertDesc (m y : Match) : ∀ l : List Match,
    y ∈ insertDesc m l ↔ y = m ∨ y ∈ l := by
  intro l
  induction l with
  | nil => simp [insertDesc]
  | cons z zs ih =>
    unfold insertDesc
    split
    · simp only [List.mem_cons]
    · simp only [List.mem_cons, ih]
      tauto

theorem mem_sortMatchesDesc_aux (y : Match) : ∀ (l acc : List Match),
    y ∈ l.foldl (fun a x => insertDesc x a) acc ↔ y ∈ acc ∨ y ∈ l := by
  intro l
  induction l with
  | nil => simp
  | cons z zs ih =>
    intro acc
    simp only [List.foldl_cons, ih, mem_insertDesc, List.mem_cons]
    tauto

theorem mem_sortMatchesDesc (l : List Match) (y : Match) :
    y ∈ sortMatchesDesc l ↔ y ∈ l := by
  unfold sortMatchesDesc
  rw [mem_sortMatchesDesc_aux]
  simp

/-- The index used in the C4 counterexample: a single metric "ABC". -/
def c4Index : QueryIndex := ⟨["ABC"], fun _ => [], fun _ _ => []⟩

/-- Counterexample to claim C4: with typed prefix "abc", the candidate
metric name "ABC" — which differs from the prefix only in letter case —
is NOT included in the suggestions `GenerateSuggestions` produces
(every `FilterPrefix` call passes `ignoreCase = false`).  The second
conjunct shows the same candidate WOULD be kept by the case-insensitive
mode of the very same filter. -/
theorem generateSuggestions_not_case_insensitive :
    generateSuggestionsGo c4Index "abc" [⟨TokenType.METRIC_ID, none, none⟩] = [] ∧
      FilterPrefixGo ["ABC"] "abc" true = ["abc"] := by
  exact ⟨rfl, rfl⟩

/-- Amended claim C4: the prefix filtering `GenerateSuggestions`
performs when mapping valid terminal types to concrete suggestions is
CASE-SENSITIVE: for a non-empty typed prefix, a metric-name candidate
appears among the returned suggestions iff the prefix is a
case-sensitive prefix of it. -/
theorem generateSuggestions_filter_case_sensitive (idx : QueryIndex)
    (p m : String) (hp : p ≠ "") :
    (∃ mt ∈ generateSuggestionsGo idx p [⟨TokenType.METRIC_ID, none, none⟩],
        mt.Value = m) ↔
      m ∈ idx.metricNames ∧ hasPrefixGo m p = true := by
  unfold generateSuggestionsGo
  constructor
  · rintro ⟨mt, hmem, rfl⟩
    rw [mem_sortMatchesDesc] at hmem
    simp only [List.foldl_cons, List.foldl_nil, List.nil_append] at hmem
    simp only [matchesFor, List.mem_map] at hmem
    obtain ⟨v, hv, rfl⟩ := hmem
    rw [mem_setList] at hv
    exact (FilterPrefixGo_mem idx.metricNames p v hp).mp hv
  · rintro ⟨hm, hpref⟩
    refine ⟨⟨m, "metric-id", joinComma (setList (idx.dims m))⟩, ?_, rfl⟩
    rw [mem_sortMatchesDesc]
    simp only [List.foldl_cons, List.foldl_nil, List.nil_append]
    simp only [matchesFor, List.mem_map]
    refine ⟨m, ?_, rfl⟩
    rw [mem_setList]
    exact (FilterPrefixGo_mem idx.metricNames p m hp).mpr ⟨hm, hpref⟩

/-- Witness for the amended C4 at a concrete index and prefix. -/
theorem generateSuggestions_filter_case_sensitive_witness :
    ("ab" : String) ≠ "" ∧
      ("abc" ∈ (⟨["abc", "xyz"], fun _ => [], fun _ _ => []⟩ : QueryIndex).metricNames ∧
        hasPrefixGo "abc" "ab" = true) ∧
      (∃ mt ∈ generateSuggestionsGo ⟨["abc", "xyz"], fun _ => [], fun _ _ => []⟩
          "ab" [⟨TokenType.METRIC_ID, none, none⟩], mt.Value = "abc") := by
  refine ⟨by decide, ⟨by simp, by decide⟩, ?_⟩
  exact (generateSuggestions_filter_case_sensitive
    ⟨["abc", "xyz"], fun _ => [], fun _ _ => []⟩ "ab" "abc" (by decide)).mpr
    ⟨by simp, by decide⟩

/-! ## Earley engine
(grammar model `src/unnamed/part_013` lines 230-382; items
`src/unnamed/part_002`; state sets `src/unnamed/part_014`; chart
`pq/autocomplete/earley/chart.go`; driver loop `PartialParse` in
`pq/autocomplete/earley/earley_test.go` lines 442-475)

Charts are lists of state sets; items are the (ruleId, dot, origin,
terminalsConsumed) projection introduced with `EarleyItem`.  The
completion context threaded by the engine never influences which items
enter the chart (contexts are consulted only by the suggestion mapping),
so the chart computation is modelled context-free; the context write
behavior itself is verified separately via `scanCtxStep`. -/

/-- A grammar symbol: non-terminal (name, root flag) or terminal
(token type, optional subtype). -/
inductive Sym where
  | nt (name : String) (root : Bool)
  | tm (tokenType : TokenType) (sub : Option TokenType)
  deriving DecidableEq

/-- `isTerminal`. -/
def Sym.isTerminal : Sym → Bool
  | .nt _ _ => false
  | .tm _ _ => true

/-- `terminal.isMatchingTerminal`: type or subtype equals the token's
type (non-terminals match nothing). -/
def Sym.isMatchingTerminal : Sym → TokenType → Bool
  | .nt _ _, _ => false
  | .tm t s, tt => t == tt || s == some tt

/-- `GrammarRule`: left non-terminal (name and root flag) and the
right-hand side.  The rule id is the rule's index in the grammar
(`NewGrammar` assigns `grammarRuleId = i`). -/
structure GrammarRule where
  left : String
  leftRoot : Bool
  right : List Sym
  deriving DecidableEq

structure Grammar where
  rules : List GrammarRule
  deriving DecidableEq

def emptyRule : GrammarRule := ⟨"", false, []⟩

/-- Rule lookup by id (ids are always in range in a well-formed run). -/
def ruleOf (g : Grammar) (rid : Nat) : GrammarRule := g.rules.getD rid emptyRule

def rhsLen (g : Grammar) (rid : Nat) : Nat := (ruleOf g rid).right.length

def emptySet : StateSet := ⟨[], []⟩

/-- `chart.GetState`. -/
def getSet (c : List StateSet) (k : Nat) : StateSet := c.getD k emptySet

/-- `EarleyItem.isCompleted`: the dot reached the end of the rule. -/
def isCompleted (g : Grammar) (it : EarleyItem) : Bool :=
  it.rulePos == rhsLen g it.ruleId

/-- The `Eof` fallback `GetRightSymbolByIndex` returns past the end. -/
def eofSym : Sym := .tm TokenType.EOF none

/-- `GetRightSymbolByRulePos`. -/
def nextSym (g : Grammar) (it : EarleyItem) : Sym :=
  (ruleOf g it.ruleId).right.getD it.rulePos eofSym

/-- Add a precomputed list of items to set `k`, one `StateSet.Add` at a
time (the shape of every add-loop in the engine: candidates are
computed first, then added in order). -/
def addAllAt (k : Nat) (c : List StateSet) (its : List EarleyItem) :
    List StateSet :=
  its.foldl (fun acc x => acc.set k ((getSet acc k).Add x).1) c

/-- `Grammar.recognizedRules`: the ids of the rules whose left
non-terminal equals the symbol (name and root flag), in grammar order. -/
def recognizedRuleIds (g : Grammar) (name : String) (root : Bool) : List Nat :=
  (List.range g.rules.length).filter (fun rid =>
    (ruleOf g rid).left == name && (ruleOf g rid).leftRoot == root)

/-- `Earley.predict`: for every recognized rule add the dotted-at-zero
item with origin `k` to set `k`. -/
def predictOp (g : Grammar) (c : List StateSet) (k : Nat)
    (name : String) (root : Bool) : List StateSet :=
  addAllAt k c ((recognizedRuleIds g name root).map (fun rid =>
    ⟨rid, 0, k, 0⟩))

/-- `Earley.scan`: abort when the next chart position does not exist or
the terminal does not match the token's type; otherwise add the
dot-advanced item (origin unchanged, consumed count +1) to set `k+1`. -/
def scanOp (c : List StateSet) (k : Nat) (tok : Tokhan) (it : EarleyItem)
    (sym : Sym) : List StateSet :=
  if c.length ≤ k + 1 then c
  else if sym.isMatchingTerminal tok.TokType then
    c.set (k + 1)
      ((getSet c (k + 1)).Add ⟨it.ruleId, it.rulePos + 1, it.origin, it.tcons + 1⟩).1
  else c

/-- `StateSet.findItemsToComplete`: the not-yet-completed items whose
next symbol is a non-terminal with the given name. -/
def findToComplete (g : Grammar) (s : StateSet) (name : String) :
    List EarleyItem :=
  s.items.filter (fun x =>
    !isCompleted g x &&
      (match nextSym g x with
       | .nt n _ => n == name
       | .tm _ _ => false))

/-- `Earley.complete`: snapshot the candidates waiting in the completed
item's origin set, then add each dot-advanced candidate to set `k`. -/
def completeOp (g : Grammar) (c : List StateSet) (k : Nat)
    (it : EarleyItem) : List StateSet :=
  addAllAt k c
    ((findToComplete g (getSet c it.origin) (ruleOf g it.ruleId).left).map
      (fun x => ⟨x.ruleId, x.rulePos + 1, x.origin, x.tcons⟩))

/-- The body of the driver loop for one item of set `k`. -/
def stepItem (g : Grammar) (tok : Tokhan) (k : Nat) (c : List StateSet)
    (it : EarleyItem) : List StateSet :=
  if isCompleted g it then completeOp g c k it
  else
    match nextSym g it with
    | .nt n root => predictOp g c k n root
    | .tm t sub => scanOp c k tok it (.tm t sub)

/-- The index-based driver loop over set `k` (`for { if setIndex >=
len(...) break ... }`): items appended during the loop are processed by
the same loop.  The fuel only bounds the iteration count; it is proven
sufficient below (`passLoop_some`), and `none` models a loop that would
still be running. -/
def passLoop (g : Grammar) (tok : Tokhan) (k : Nat) :
    Nat → Nat → List StateSet → Option (List StateSet)
  | 0, idx, c => if idx < (getSet c k).items.length then none else some c
  | fuel + 1, idx, c =>
    if idx < (getSet c k).items.length then
      passLoop g tok k fuel (idx + 1)
        (stepItem g tok k c ((getSet c k).items.getD idx ⟨0, 0, 0, 0⟩))
    else some c

/-- The token loop of `PartialParse`: one full pass per token, with the
chart position advancing by one after each token. -/
def drive (g : Grammar) (fuel : Nat) :
    List Tokhan → Nat → List StateSet → Option (List StateSet)
  | [], _, c => some c
  | t :: ts, k, c =>
    match passLoop g t k fuel 0 c with
    | none => none
    | some c2 => drive g fuel ts (k + 1) c2

/-- `Grammar.initialStateSet`: every rule with a root left-hand side,
dotted at zero with origin zero. -/
def initialStateSet (g : Grammar) : StateSet :=
  (((List.range g.rules.length).filter (fun rid => (ruleOf g rid).leftRoot)).map
    (fun rid => (⟨rid, 0, 0, 0⟩ : EarleyItem))).foldl
    (fun s x => (s.Add x).1) emptySet

/-- `resizeChart`: append fresh empty state sets up to the size. -/
def resizeChart (c : List StateSet) (size : Nat) : List StateSet :=
  c ++ List.replicate (size - c.length) emptySet

/-- `ParseTokens` on a fresh chart (`resetChart` + `PartialParse(tokens,
0)`): seed position 0, size the chart to `len+1`, and run one pass per
token from position 0. -/
def fullParse (g : Grammar) (fuel : Nat) (tokens : List Tokhan) :
    Option (List StateSet) :=
  drive g fuel tokens 0 (resizeChart [initialStateSet g] (tokens.length + 1))

/-- `Tokhan.equals`: value and both positions agree. -/
def tokEq (a b : Tokhan) : Bool :=
  a.Val == b.Val && a.StartPos == b.StartPos && a.EndPos == b.EndPos

/-- The length of the longest common token prefix, tokens compared by
`Tokhan.equals` (the quantity `Tokens.Compare` reports through its
sign/zero encoding). -/
def commonPrefixLen : List Tokhan → List Tokhan → Nat
  | [], _ => 0
  | _ :: _, [] => 0
  | a :: as, b :: bs => if tokEq a b then commonPrefixLen as bs + 1 else 0

/-- `earleyChart.invalidateStartingAt`: replace the state sets from
`index` on with fresh empty sets. -/
def invalidateStartingAt (c : List StateSet) (index : Nat) : List StateSet :=
  c.take index ++ List.replicate (c.length - index) emptySet

/-- Modelled from the spec: the incremental re-parse driver (§4.D bis),
whose orchestration (`Tokens.Compare` + `invalidateStartingAt` +
`PartialParse` from the divergence) is absent from src — only its
callees and tests are present.  With `L` the longest common token
prefix, state sets `0..L` are retained (set `L`'s closure is
token-independent, and position 0 is the seeded initial set), sets from
`L+1` are invalidated, the chart is truncated/resized to the new length
(the spec's truncation corner), and the engine runs from position `L`
over the new tokens. -/
def incrementalReparse (g : Grammar) (fuel : Nat) (prevTokens : List Tokhan)
    (prevChart : List StateSet) (newTokens : List Tokhan) :
    Option (List StateSet) :=
  drive g fuel (newTokens.drop (commonPrefixLen prevTokens newTokens))
    (commonPrefixLen prevTokens newTokens)
    (resizeChart
      ((invalidateStartingAt prevChart
        (commonPrefixLen prevTokens newTokens + 1)).take (newTokens.length + 1))
      (newTokens.length + 1))

/-- The scan of `GetValidTerminalTypesAtStateSet` over the items of one
state set, with the `terminalTypes` dedup map as the `seen` list: skip
items that consumed `wordIndex+1` terminals (a full parse at this
position — an EOF completion), skip the defensive out-of-bounds case,
and emit each terminal's subtype-or-type once.  The context attached to
non-`METRIC_ID` entries is not carried here (the chart model is
context-free; see the section header). -/
def validTypesLoop (g : Grammar) (wordIndex : Nat) :
    List EarleyItem → List TokenType → List TokenType
  | [], _ => []
  | it :: rest, seen =>
    if it.tcons == wordIndex + 1 then validTypesLoop g wordIndex rest seen
    else if rhsLen g it.ruleId ≤ it.rulePos then validTypesLoop g wordIndex rest seen
    else
      match (ruleOf g it.ruleId).right.getD it.rulePos eofSym with
      | .nt _ _ => validTypesLoop g wordIndex rest seen
      | .tm t sub =>
        let tkn := sub.getD t
        if tkn ∈ seen then validTypesLoop g wordIndex rest seen
        else tkn :: validTypesLoop g wordIndex rest (tkn :: seen)

/-- `GetValidTerminalTypesAtStateSet(wordIndex)` (token types only). -/
def validTypesGo (g : Grammar) (c : List StateSet) (wordIndex : Nat) :
    List TokenType :=
  validTypesLoop g wordIndex (getSet c wordIndex).items []

/-- `GetSuggestedTokenType`: full parse, then the valid terminal types
at the last token position (`max(len-1, 0)`). -/
def getSuggestedTokenTypes (g : Grammar) (fuel : Nat) (tokens : List Tokhan) :
    Option (List TokenType) :=
  (fullParse g fuel tokens).map (fun c => validTypesGo g c (tokens.length - 1))

/-! ### Chart and state-set basic lemmas -/

theorem getSet_eq (c : List StateSet) (k : Nat) :
    getSet c k = (getElem? c k).getD emptySet := by
  simp [getSet]

theorem getSet_set_self (c : List StateSet) (k : Nat) (s : StateSet)
    (h : k < c.length) : getSet (c.set k s) k = s := by
  rw [getSet_eq, List.getElem?_set_self h]
  rfl

theorem getSet_set_ne (c : List StateSet) (k j : Nat) (s : StateSet)
    (h : k ≠ j) : getSet (c.set k s) j = getSet c j := by
  rw [getSet_eq, getSet_eq, List.getElem?_set_ne h]

theorem set_getSet_self (c : List StateSet) (k : Nat) (h : k < c.length) :
    c.set k (getSet c k) = c := by
  apply List.ext_getElem?
  intro n
  by_cases hn : k = n
  · subst hn
    rw [List.getElem?_set_self h, getSet_eq, List.getElem?_eq_getElem h]
    rfl
  · rw [List.getElem?_set_ne hn]

theorem set_set_same (c : List StateSet) (k : Nat) (s t : StateSet) :
    (c.set k s).set k t = c.set k t := by
  by_cases h : k < c.length
  · apply List.ext_getElem?
    intro n
    by_cases hn : k = n
    · subst hn
      rw [List.getElem?_set_self (by simpa using h), List.getElem?_set_self h]
    · rw [List.getElem?_set_ne hn, List.getElem?_set_ne hn, List.getElem?_set_ne hn]
  · have h' : c.length ≤ k := by omega
    have h1 : c.set k s = c := List.set_eq_of_length_le h'
    rw [h1]

theorem Add_fst_cases (s : StateSet) (it : EarleyItem) :
    (badhash it ∈ s.itemSet ∧ (s.Add it).1 = s) ∨
      (badhash it ∉ s.itemSet ∧
        (s.Add it).1 = ⟨s.items ++ [it], s.itemSet ++ [badhash it]⟩) := by
  unfold StateSet.Add
  by_cases h : badhash it ∈ s.itemSet
  · left; exact ⟨h, by rw [if_pos h]⟩
  · right; exact ⟨h, by rw [if_neg h]⟩

theorem Add_items_prefix (s : StateSet) (it : EarleyItem) :
    s.items <+: (s.Add it).1.items := by
  rcases Add_fst_cases s it with ⟨_, h⟩ | ⟨_, h⟩
  · rw [h]
  · rw [h]
    exact ⟨[it], rfl⟩

theorem Add_itemSet_subset (s : StateSet) (it : EarleyItem) (x : Nat)
    (hx : x ∈ s.itemSet) : x ∈ (s.Add it).1.itemSet := by
  rcases Add_fst_cases s it with ⟨_, h⟩ | ⟨_, h⟩ <;> rw [h]
  · exact hx
  · exact List.mem_append_left _ hx

theorem Add_hash_mem (s : StateSet) (it : EarleyItem) :
    badhash it ∈ (s.Add it).1.itemSet := by
  rcases Add_fst_cases s it with ⟨hm, h⟩ | ⟨_, h⟩ <;> rw [h]
  · exact hm
  · exact List.mem_append_right _ (by simp)

/-! ### Invariants -/

def maxRhs (g : Grammar) : Nat := (g.rules.map (fun r => r.right.length)).foldr max 0

theorem le_foldr_max (x : Nat) : ∀ l : List Nat, x ∈ l → x ≤ l.foldr max 0 := by
  intro l
  induction l with
  | nil => simp
  | cons y ys ih =>
    intro hx
    rcases List.mem_cons.mp hx with rfl | hx
    · exact le_max_left _ _
    · exact le_trans (ih hx) (le_max_right _ _)

theorem rhsLen_le_maxRhs (g : Grammar) (rid : Nat) (h : rid < g.rules.length) :
    rhsLen g rid ≤ maxRhs g := by
  apply le_foldr_max
  rw [List.mem_map]
  refine ⟨ruleOf g rid, ?_, rfl⟩
  unfold ruleOf
  rw [List.getD_eq_getElem?_getD, List.getElem?_eq_getElem h]
  exact List.getElem_mem h

/-- Item sanity at chart position `k`: in-grammar rule id, dot within
the rule, origin at or before the position. -/
def ItemOK (g : Grammar) (k : Nat) (it : EarleyItem) : Prop :=
  it.ruleId < g.rules.length ∧ it.rulePos ≤ rhsLen g it.ruleId ∧ it.origin ≤ k

/-- State-set sanity: dedup set synchronized with the items, no
duplicate hashes, all items sane. -/
def SetOK (g : Grammar) (k : Nat) (s : StateSet) : Prop :=
  s.WF ∧ s.itemSet.Nodup ∧ ∀ it ∈ s.items, ItemOK g k it

def ChartOK (g : Grammar) (c : List StateSet) : Prop :=
  ∀ k, k < c.length → SetOK g k (getSet c k)

theorem SetOK_empty (g : Grammar) (k : Nat) : SetOK g k emptySet :=
  ⟨rfl, List.nodup_nil, by simp [emptySet]⟩

theorem SetOK_Add (g : Grammar) (k : Nat) (s : StateSet) (it : EarleyItem)
    (hs : SetOK g k s) (hit : ItemOK g k it) : SetOK g k (s.Add it).1 := by
  obtain ⟨hwf, hnd, hall⟩ := hs
  rcases Add_fst_cases s it with ⟨_, h⟩ | ⟨hnm, h⟩ <;> rw [h]
  · exact ⟨hwf, hnd, hall⟩
  · refine ⟨?_, ?_, ?_⟩
    · show s.itemSet ++ [badhash it] = (s.items ++ [it]).map badhash
      rw [List.map_append, hwf]
      rfl
    · rw [List.nodup_append]
      exact ⟨hnd, List.nodup_singleton _, by simpa using hnm⟩
    · intro x hx
      rcases List.mem_append.mp hx with hx | hx
      · exact hall x hx
      · rw [List.mem_singleton] at hx
        subst hx
        exact hit

/-! ### `addAllAt` lemmas -/

theorem addAllAt_nil (k : Nat) (c : List StateSet) : addAllAt k c [] = c := rfl

theorem addAllAt_cons (k : Nat) (c : List StateSet) (x : EarleyItem)
    (xs : List EarleyItem) :
    addAllAt k c (x :: xs) = addAllAt k (c.set k ((getSet c k).Add x).1) xs := rfl

theorem addAllAt_length (k : Nat) (its : List EarleyItem) :
    ∀ c : List StateSet, (addAllAt k c its).length = c.length := by
  induction its with
  | nil => intro c; rfl
  | cons x xs ih =>
    intro c
    rw [addAllAt_cons, ih]
    simp

theorem addAllAt_get_ne (k j : Nat) (hkj : k ≠ j) (its : List EarleyItem) :
    ∀ c : List StateSet, getSet (addAllAt k c its) j = getSet c j := by
  induction its with
  | nil => intro c; rfl
  | cons x xs ih =>
    intro c
    rw [addAllAt_cons, ih, getSet_set_ne _ _ _ _ hkj]

theorem set_nop_of_le (c : List StateSet) (k : Nat) (s : StateSet)
    (h : c.length ≤ k) : c.set k s = c := List.set_eq_of_length_le h

theorem addAllAt_step_eq (k : Nat) (c : List StateSet) (x : EarleyItem)
    (hmem : badhash x ∈ (getSet c k).itemSet) :
    c.set k ((getSet c k).Add x).1 = c := by
  rcases Add_fst_cases (getSet c k) x with ⟨_, h⟩ | ⟨hnm, _⟩
  · rw [h]
    by_cases hk : k < c.length
    · exact set_getSet_self c k hk
    · exact set_nop_of_le c k _ (by omega)
  · exact absurd hmem hnm

theorem addAllAt_absorb (k : Nat) (its : List EarleyItem) :
    ∀ c : List StateSet, (∀ x ∈ its, badhash x ∈ (getSet c k).itemSet) →
      addAllAt k c its = c := by
  induction its with
  | nil => intro c _; rfl
  | cons x xs ih =>
    intro c hall
    rw [addAllAt_cons, addAllAt_step_eq k c x (hall x (by simp))]
    exact ih c (fun y hy => hall y (by simp [hy]))

theorem addAllAt_items_prefix (k : Nat) (its : List EarleyItem) :
    ∀ (c : List StateSet) (j : Nat),
      (getSet c j).items <+: (getSet (addAllAt k c its) j).items := by
  induction its with
  | nil => intro c j; exact List.prefix_refl _
  | cons x xs ih =>
    intro c j
    rw [addAllAt_cons]
    refine List.IsPrefix.trans ?_ (ih _ j)
    by_cases hkj : k = j
    · subst hkj
      by_cases hk : k < c.length
      · rw [getSet_set_self _ _ _ hk]
        exact Add_items_prefix _ _
      · rw [set_nop_of_le c k _ (by omega)]
    · rw [getSet_set_ne _ _ _ _ hkj]

theorem addAllAt_itemSet_subset (k : Nat) (its : List EarleyItem) :
    ∀ (c : List StateSet) (j : Nat) (h : Nat),
      h ∈ (getSet c j).itemSet → h ∈ (getSet (addAllAt k c its) j).itemSet := by
  induction its with
  | nil => intro c j h hh; exact hh
  | cons x xs ih =>
    intro c j h hh
    rw [addAllAt_cons]
    apply ih
    by_cases hkj : k = j
    · subst hkj
      by_cases hk : k < c.length
      · rw [getSet_set_self _ _ _ hk]
        exact Add_itemSet_subset _ _ _ hh
      · rw [set_nop_of_le c k _ (by omega)]
        exact hh
    · rw [getSet_set_ne _ _ _ _ hkj]
      exact hh

theorem addAllAt_hash_mem (k : Nat) (its : List EarleyItem) :
    ∀ (c : List StateSet), k < c.length → ∀ x ∈ its,
      badhash x ∈ (getSet (addAllAt k c its) k).itemSet := by
  induction its with
  | nil => intro c _ x hx; exact absurd hx (by simp)
  | cons y ys ih =>
    intro c hk x hx
    rw [addAllAt_cons]
    rcases List.mem_cons.mp hx with rfl | hx
    · apply addAllAt_itemSet_subset
      rw [getSet_set_self _ _ _ hk]
      exact Add_hash_mem _ _
    · exact ih _ (by simpa using hk) x hx

theorem addAllAt_pad (k : Nat) (its : List EarleyItem) (pad : List StateSet) :
    ∀ c : List StateSet, k < c.length →
      addAllAt k (c ++ pad) its = addAllAt k c its ++ pad := by
  induction its with
  | nil => intro c _; rfl
  | cons x xs ih =>
    intro c hk
    rw [addAllAt_cons, addAllAt_cons]
    have hget : getSet (c ++ pad) k = getSet c k := by
      rw [getSet_eq, getSet_eq, List.getElem?_append_left hk]
    rw [hget, List.set_append_left _ _ hk]
    exact ih _ (by simpa using hk)

theorem addAllAt_ChartOK (g : Grammar) (k : Nat) (its : List EarleyItem)
    (hits : ∀ x ∈ its, ItemOK g k x) :
    ∀ c : List StateSet, ChartOK g c → ChartOK g (addAllAt k c its) := by
  induction its with
  | nil => intro c hc; exact hc
  | cons x xs ih =>
    intro c hc
    rw [addAllAt_cons]
    apply ih (fun y hy => hits y (by simp [hy]))
    intro j hj
    simp only [List.length_set] at hj
    by_cases hkj : k = j
    · subst hkj
      rw [getSet_set_self _ _ _ hj]
      exact SetOK_Add g k _ x (hc k hj) (hits x (by simp))
    · rw [getSet_set_ne _ _ _ _ hkj]
      exact hc j hj

/-! ### Step lemmas -/

theorem scanOp_cases (c : List StateSet) (k : Nat) (tok : Tokhan)
    (it : EarleyItem) (sym : Sym) :
    scanOp c k tok it sym = c ∨
      (k + 1 < c.length ∧ scanOp c k tok it sym =
        c.set (k + 1) ((getSet c (k + 1)).Add
          ⟨it.ruleId, it.rulePos + 1, it.origin, it.tcons + 1⟩).1) := by
  unfold scanOp
  by_cases h1 : c.length ≤ k + 1
  · left; rw [if_pos h1]
  · rw [if_neg h1]
    by_cases h2 : sym.isMatchingTerminal tok.TokType
    · right
      exact ⟨by omega, by rw [if_pos h2]⟩
    · left
      rw [if_neg h2]

theorem scanOp_length (c : List StateSet) (k : Nat) (tok : Tokhan)
    (it : EarleyItem) (sym : Sym) :
    (scanOp c k tok it sym).length = c.length := by
  rcases scanOp_cases c k tok it sym with h | ⟨_, h⟩ <;> rw [h] <;> simp

theorem scanOp_get_ne (c : List StateSet) (k j : Nat) (tok : Tokhan)
    (it : EarleyItem) (sym : Sym) (hj : j ≠ k + 1) :
    getSet (scanOp c k tok it sym) j = getSet c j := by
  rcases scanOp_cases c k tok it sym with h | ⟨_, h⟩ <;> rw [h]
  rw [getSet_set_ne _ _ _ _ (fun he => hj he.symm)]

theorem scanOp_items_prefix (c : List StateSet) (k j : Nat) (tok : Tokhan)
    (it : EarleyItem) (sym : Sym) :
    (getSet c j).items <+: (getSet (scanOp c k tok it sym) j).items := by
  rcases scanOp_cases c k tok it sym with h | ⟨hk, h⟩ <;> rw [h]
  by_cases hj : j = k + 1
  · subst hj
    rw [getSet_set_self _ _ _ hk]
    exact Add_items_prefix _ _
  · rw [getSet_set_ne _ _ _ _ (fun he => hj he.symm)]

theorem scanOp_itemSet_subset (c : List StateSet) (k j : Nat) (tok : Tokhan)
    (it : EarleyItem) (sym : Sym) (h : Nat)
    (hh : h ∈ (getSet c j).itemSet) :
    h ∈ (getSet (scanOp c k tok it sym) j).itemSet := by
  rcases scanOp_cases c k tok it sym with he | ⟨hk, he⟩ <;> rw [he]
  · exact hh
  · by_cases hj : j = k + 1
    · subst hj
      rw [getSet_set_self _ _ _ hk]
      exact Add_itemSet_subset _ _ _ hh
    · rw [getSet_set_ne _ _ _ _ (fun he2 => hj he2.symm)]
      exact hh

theorem scanOp_ChartOK (g : Grammar) (c : List StateSet) (k : Nat)
    (tok : Tokhan) (it : EarleyItem) (sym : Sym) (hc : ChartOK g c)
    (hit : it.ruleId < g.rules.length ∧ it.rulePos < rhsLen g it.ruleId ∧
      it.origin ≤ k) :
    ChartOK g (scanOp c k tok it sym) := by
  rcases scanOp_cases c k tok it sym with h | ⟨hk, h⟩ <;> rw [h]
  · exact hc
  · intro j hj
    simp only [List.length_set] at hj
    by_cases hj1 : k + 1 = j
    · subst hj1
      rw [getSet_set_self _ _ _ hj]
      refine SetOK_Add g (k + 1) _ _ (hc (k + 1) hj) ?_
      refine ⟨hit.1, ?_, ?_⟩
      · show it.rulePos + 1 ≤ rhsLen g it.ruleId
        have := hit.2.1
        omega
      · show it.origin ≤ k + 1
        have := hit.2.2
        omega
    · rw [getSet_set_ne _ _ _ _ hj1]
      exact hc j hj

theorem findToComplete_sub (g : Grammar) (s : StateSet) (name : String) :
    ∀ x ∈ findToComplete g s name, x ∈ s.items ∧ isCompleted g x = false := by
  intro x hx
  unfold findToComplete at hx
  have h1 := List.mem_filter.mp hx
  refine ⟨h1.1, ?_⟩
  have := h1.2
  cases hcc : isCompleted g x
  · rfl
  · rw [hcc] at this
    simp at this

theorem stepItem_length (g : Grammar) (tok : Tokhan) (k : Nat)
    (c : List StateSet) (it : EarleyItem) :
    (stepItem g tok k c it).length = c.length := by
  unfold stepItem
  split
  · exact addAllAt_length _ _ _
  · split
    · exact addAllAt_length _ _ _
    · exact scanOp_length _ _ _ _ _

theorem stepItem_get_other (g : Grammar) (tok : Tokhan) (k j : Nat)
    (c : List StateSet) (it : EarleyItem) (hjk : j ≠ k) (hjk1 : j ≠ k + 1) :
    getSet (stepItem g tok k c it) j = getSet c j := by
  unfold stepItem
  split
  · exact addAllAt_get_ne _ _ (fun he => hjk he.symm) _ _
  · split
    · exact addAllAt_get_ne _ _ (fun he => hjk he.symm) _ _
    · exact scanOp_get_ne _ _ _ _ _ _ hjk1

theorem stepItem_items_prefix (g : Grammar) (tok : Tokhan) (k j : Nat)
    (c : List StateSet) (it : EarleyItem) :
    (getSet c j).items <+: (getSet (stepItem g tok k c it) j).items := by
  unfold stepItem
  split
  · exact addAllAt_items_prefix _ _ _ _
  · split
    · exact addAllAt_items_prefix _ _ _ _
    · exact scanOp_items_prefix _ _ _ _ _ _

theorem stepItem_itemSet_subset (g : Grammar) (tok : Tokhan) (k j : Nat)
    (c : List StateSet) (it : EarleyItem) (h : Nat)
    (hh : h ∈ (getSet c j).itemSet) :
    h ∈ (getSet (stepItem g tok k c it) j).itemSet := by
  unfold stepItem
  split
  · exact addAllAt_itemSet_subset _ _ _ _ _ hh
  · split
    · exact addAllAt_itemSet_subset _ _ _ _ _ hh
    · exact scanOp_itemSet_subset _ _ _ _ _ _ _ hh

theorem stepItem_ChartOK (g : Grammar) (tok : Tokhan) (k : Nat)
    (c : List StateSet) (it : EarleyItem) (hc : ChartOK g c)
    (hk : k < c.length) (hit : ItemOK g k it) :
    ChartOK g (stepItem g tok k c it) := by
  obtain ⟨h1, h2, h3⟩ := hit
  unfold stepItem
  split
  · -- complete
    apply addAllAt_ChartOK g k _ ?_ c hc
    intro y hy
    rw [List.mem_map] at hy
    obtain ⟨x, hx, rfl⟩ := hy
    have horig : it.origin < c.length := by omega
    obtain ⟨hxmem, hxnc⟩ := findToComplete_sub g _ _ x hx
    have hxok : ItemOK g it.origin x := (hc it.origin horig).2.2 x hxmem
    have hxlt : x.rulePos < rhsLen g x.ruleId := by
      have := hxok.2.1
      have hne : x.rulePos ≠ rhsLen g x.ruleId := by
        intro he
        rw [isCompleted, he] at hxnc
        simp at hxnc
      omega
    refine ⟨hxok.1, ?_, ?_⟩
    · show x.rulePos + 1 ≤ rhsLen g x.ruleId
      omega
    · show x.origin ≤ k
      have := hxok.2.2
      omega
  · -- not completed: predict or scan
    rename_i hnc
    split
    · apply addAllAt_ChartOK g k _ ?_ c hc
      intro y hy
      rw [List.mem_map] at hy
      obtain ⟨rid, hrid, rfl⟩ := hy
      have : rid < g.rules.length := by
        unfold recognizedRuleIds at hrid
        have := List.mem_filter.mp hrid
        simpa using this.1
      exact ⟨this, by simp [rhsLen], le_refl k⟩
    · apply scanOp_ChartOK g c k tok it _ hc
      refine ⟨h1, ?_, h3⟩
      have hne : it.rulePos ≠ rhsLen g it.ruleId := by
        intro he
        rw [isCompleted] at hnc
        simp [he] at hnc
      omega

/-! ### Termination (claim C9) -/

theorem getD_mem (l : List EarleyItem) (i : Nat) (d : EarleyItem)
    (h : i < l.length) : l.getD i d ∈ l := by
  rw [List.getD_eq_getElem?_getD, List.getElem?_eq_getElem h]
  exact List.getElem_mem h

theorem badhash_tcons (a b c0 d : Nat) :
    badhash ⟨a, b, c0, d⟩ = badhash ⟨a, b, c0, 0⟩ := rfl

/-- All hash values that items of a sane chart of length `L` can have. -/
def hashUniverse (g : Grammar) (L : Nat) : Finset Nat :=
  ((Finset.range g.rules.length) ×ˢ (Finset.range (maxRhs g + 1)) ×ˢ
    (Finset.range L)).image (fun p => badhash ⟨p.1, p.2.1, p.2.2, 0⟩)

theorem hashUniverse_card (g : Grammar) (L : Nat) :
    (hashUniverse g L).card ≤ g.rules.length * ((maxRhs g + 1) * L) := by
  refine le_trans Finset.card_image_le ?_
  rw [Finset.card_product, Finset.card_product]
  simp [Finset.card_range]

/-- Dedup bounds a sane state set by the number of distinct hash
values: the source's "idempotent put" cannot grow a set forever. -/
theorem SetOK_items_le (g : Grammar) (k : Nat) (s : StateSet) (L : Nat)
    (hs : SetOK g k s) (hkL : k < L) :
    s.items.length ≤ g.rules.length * ((maxRhs g + 1) * L) := by
  obtain ⟨hwf, hnd, hall⟩ := hs
  have hlen : s.itemSet.length = s.items.length := by
    rw [hwf]; simp
  have hsub : ∀ h ∈ s.itemSet, h ∈ hashUniverse g L := by
    intro h hh
    rw [hwf, List.mem_map] at hh
    obtain ⟨it, hit, rfl⟩ := hh
    obtain ⟨o1, o2, o3⟩ := hall it hit
    unfold hashUniverse
    rw [Finset.mem_image]
    refine ⟨(it.ruleId, it.rulePos, it.origin), ?_, by rfl⟩
    have hmax : it.rulePos ≤ maxRhs g := le_trans o2 (rhsLen_le_maxRhs g _ o1)
    simp only [Finset.mem_product, Finset.mem_range]
    exact ⟨o1, hmax.trans_lt (by omega), by omega⟩
  calc s.items.length = s.itemSet.length := hlen.symm
    _ = s.itemSet.toFinset.card := (List.toFinset_card_of_nodup hnd).symm
    _ ≤ (hashUniverse g L).card :=
        Finset.card_le_card (fun h hh => hsub h (List.mem_toFinset.mp hh))
    _ ≤ _ := hashUniverse_card g L

/-- The per-state-set driver loop terminates: with fuel at least the
dedup bound the loop always exits, preserving the chart invariant. -/
theorem passLoop_some (g : Grammar) (tok : Tokhan) (k : Nat) :
    ∀ (fuel idx : Nat) (c : List StateSet), ChartOK g c → k < c.length →
      g.rules.length * ((maxRhs g + 1) * c.length) ≤ fuel + idx →
      ∃ c2, passLoop g tok k fuel idx c = some c2 ∧ ChartOK g c2 ∧
        c2.length = c.length := by
  intro fuel
  induction fuel with
  | zero =>
    intro idx c hc hk hb
    have hle := SetOK_items_le g k _ c.length (hc k hk) hk
    have hidx : ¬ idx < (getSet c k).items.length := by omega
    exact ⟨c, by simp only [passLoop]; rw [if_neg hidx], hc, rfl⟩
  | succ fuel ih =>
    intro idx c hc hk hb
    by_cases hidx : idx < (getSet c k).items.length
    · have hit : ItemOK g k ((getSet c k).items.getD idx ⟨0, 0, 0, 0⟩) :=
        (hc k hk).2.2 _ (getD_mem _ _ _ hidx)
      have hstep := stepItem_ChartOK g tok k c _ hc hk hit
      have hlen := stepItem_length g tok k c ((getSet c k).items.getD idx ⟨0, 0, 0, 0⟩)
      obtain ⟨c2, h2, hok2, hl2⟩ := ih (idx + 1) _ hstep
        (by rw [hlen]; exact hk) (by rw [hlen]; omega)
      refine ⟨c2, ?_, hok2, by rw [hl2, hlen]⟩
      simp only [passLoop]
      rw [if_pos hidx]
      exact h2
    · exact ⟨c, by simp only [passLoop]; rw [if_neg hidx], hc, rfl⟩

/-- The token loop terminates, one pass per token. -/
theorem drive_some (g : Grammar) (fuel : Nat) :
    ∀ (ts : List Tokhan) (k : Nat) (c : List StateSet), ChartOK g c →
      k + ts.length < c.length →
      g.rules.length * ((maxRhs g + 1) * c.length) ≤ fuel →
      ∃ c2, drive g fuel ts k c = some c2 ∧ ChartOK g c2 ∧
        c2.length = c.length := by
  intro ts
  induction ts with
  | nil => intro k c hc _ _; exact ⟨c, rfl, hc, rfl⟩
  | cons t ts ih =>
    intro k c hc hlt hb
    obtain ⟨c1, h1, hok1, hl1⟩ := passLoop_some g t k fuel 0 c hc
      (by simp at hlt; omega) (by omega)
    obtain ⟨c2, h2, hok2, hl2⟩ := ih (k + 1) c1 hok1
      (by rw [hl1]; simp at hlt ⊢; omega) (by rw [hl1]; exact hb)
    refine ⟨c2, ?_, hok2, by rw [hl2, hl1]⟩
    simp only [drive]
    rw [h1]
    exact h2

theorem initialStateSet_OK (g : Grammar) : SetOK g 0 (initialStateSet g) := by
  unfold initialStateSet
  have hgen : ∀ (l : List Nat) (s : StateSet), SetOK g 0 s →
      (∀ rid ∈ l, rid < g.rules.length) →
      SetOK g 0 ((l.map (fun rid => (⟨rid, 0, 0, 0⟩ : EarleyItem))).foldl
        (fun s x => (s.Add x).1) s) := by
    intro l
    induction l with
    | nil => intro s hs _; exact hs
    | cons r rs ih =>
      intro s hs hall
      simp only [List.map_cons, List.foldl_cons]
      apply ih _ (SetOK_Add g 0 s _ hs ?_) (fun rid h => hall rid (by simp [h]))
      exact ⟨hall r (by simp), by simp [rhsLen], le_refl 0⟩
  apply hgen _ _ (SetOK_empty g 0)
  intro rid hrid
  have := List.mem_filter.mp hrid
  simpa using this.1

theorem resizeChart_length (c : List StateSet) (n : Nat) (h : c.length ≤ n) :
    (resizeChart c n).length = n := by
  simp [resizeChart]
  omega

theorem getSet_resize_lo (c : List StateSet) (n k : Nat) (h : k < c.length) :
    getSet (resizeChart c n) k = getSet c k := by
  rw [getSet_eq, getSet_eq, resizeChart, List.getElem?_append_left h]

theorem getSet_resize_hi (c : List StateSet) (n k : Nat) (h : c.length ≤ k) :
    getSet (resizeChart c n) k = emptySet := by
  rw [getSet_eq, resizeChart, List.getElem?_append_right h]
  by_cases h2 : k - c.length < n - c.length
  · rw [List.getElem?_replicate, if_pos h2]
    rfl
  · rw [List.getElem?_replicate, if_neg h2]
    rfl

theorem resizeChart_ChartOK (g : Grammar) (c : List StateSet) (n : Nat)
    (hc : ChartOK g c) : ChartOK g (resizeChart c n) := by
  intro k hk
  by_cases h : k < c.length
  · rw [getSet_resize_lo c n k h]
    exact hc k h
  · rw [getSet_resize_hi c n k (by omega)]
    exact SetOK_empty g k

theorem fullChart_ChartOK (g : Grammar) (n : Nat) :
    ChartOK g (resizeChart [initialStateSet g] n) := by
  apply resizeChart_ChartOK
  intro k hk
  simp only [List.length_singleton] at hk
  interval_cases k
  exact initialStateSet_OK g

/-- The fuel budget that provably suffices for a chart of length `L`. -/
def fuelBound (g : Grammar) (L : Nat) : Nat :=
  g.rules.length * ((maxRhs g + 1) * L)

/-- Claim C9: generating suggestions terminates within finitely many
steps for every token stream: the per-state-set driver loop, which may
append new items to the set it iterates, exits within the dedup bound
`|rules| * (maxRhs + 1) * chartLength` because `StateSet.Add`
deduplicates on the packed (rule, dot, origin) key, so the engine
(`GetSuggestedTokenType` = full parse + extraction) always returns. -/
theorem generateSuggestions_terminates (g : Grammar) (tokens : List Tokhan) :
    ∃ ts, getSuggestedTokenTypes g (fuelBound g (tokens.length + 1)) tokens
      = some ts := by
  unfold getSuggestedTokenTypes fullParse
  have hlen : (resizeChart [initialStateSet g] (tokens.length + 1)).length
      = tokens.length + 1 := resizeChart_length _ _ (by simp)
  obtain ⟨c2, h2, _, _⟩ := drive_some g (fuelBound g (tokens.length + 1))
    tokens 0 (resizeChart [initialStateSet g] (tokens.length + 1))
    (fullChart_ChartOK g _) (by omega) (by rw [hlen]; exact le_refl _)
  exact ⟨_, by rw [h2]; rfl⟩

/-! ### Pass-level lemmas for the incremental-reparse equivalence -/

theorem prefix_getD (l1 l2 : List EarleyItem) (h : l1 <+: l2) (i : Nat)
    (hi : i < l1.length) (d : EarleyItem) : l2.getD i d = l1.getD i d := by
  obtain ⟨t, rfl⟩ := h
  rw [List.getD_eq_getElem?_getD, List.getD_eq_getElem?_getD,
    List.getElem?_append_left hi]

/-- The items the step adds to set `k` itself (complete and predict
targets; scan adds to `k+1` only). -/
def stepKItems (g : Grammar) (k : Nat) (c : List StateSet)
    (it : EarleyItem) : List EarleyItem :=
  if isCompleted g it then
    (findToComplete g (getSet c it.origin) (ruleOf g it.ruleId).left).map
      (fun x => ⟨x.ruleId, x.rulePos + 1, x.origin, x.tcons⟩)
  else
    match nextSym g it with
    | .nt n root => (recognizedRuleIds g n root).map (fun rid => ⟨rid, 0, k, 0⟩)
    | .tm _ _ => []

theorem stepItem_eq_of_completed (g : Grammar) (tok : Tokhan) (k : Nat)
    (c : List StateSet) (it : EarleyItem) (h : isCompleted g it = true) :
    stepItem g tok k c it = addAllAt k c (stepKItems g k c it) := by
  unfold stepItem stepKItems completeOp
  rw [if_pos h, if_pos h]

theorem stepItem_eq_of_nt (g : Grammar) (tok : Tokhan) (k : Nat)
    (c : List StateSet) (it : EarleyItem) (n : String) (root : Bool)
    (h : isCompleted g it = false) (hn : nextSym g it = .nt n root) :
    stepItem g tok k c it = addAllAt k c (stepKItems g k c it) := by
  unfold stepItem stepKItems predictOp
  rw [if_neg (by simp [h]), if_neg (by simp [h]), hn]

theorem stepItem_eq_of_tm (g : Grammar) (tok : Tokhan) (k : Nat)
    (c : List StateSet) (it : EarleyItem) (t : TokenType)
    (sub : Option TokenType) (h : isCompleted g it = false)
    (hn : nextSym g it = .tm t sub) :
    stepItem g tok k c it = scanOp c k tok it (.tm t sub) := by
  unfold stepItem
  rw [if_neg (by simp [h]), hn]

/-- Iterated `Add` on a single state set. -/
def foldAdd (s : StateSet) (its : List EarleyItem) : StateSet :=
  its.foldl (fun s x => (s.Add x).1) s

theorem addAllAt_get_self (k : Nat) (its : List EarleyItem) :
    ∀ c : List StateSet, k < c.length →
      getSet (addAllAt k c its) k = foldAdd (getSet c k) its := by
  induction its with
  | nil => intro c _; rfl
  | cons x xs ih =>
    intro c hk
    rw [addAllAt_cons]
    rw [ih _ (by simpa using hk)]
    rw [getSet_set_self _ _ _ hk]
    rfl

theorem set_after_addAllAt (k : Nat) (its : List EarleyItem) :
    ∀ (c : List StateSet) (S : StateSet),
      (addAllAt k c its).set k S = c.set k S := by
  induction its with
  | nil => intro c S; rfl
  | cons x xs ih =>
    intro c S
    rw [addAllAt_cons, ih, set_set_same]

theorem stepItem_hash_mem (g : Grammar) (tok : Tokhan) (k : Nat)
    (c : List StateSet) (it : EarleyItem) (hk : k < c.length) :
    ∀ y ∈ stepKItems g k c it,
      badhash y ∈ (getSet (stepItem g tok k c it) k).itemSet := by
  intro y hy
  by_cases hcmp : isCompleted g it = true
  · rw [stepItem_eq_of_completed g tok k c it hcmp]
    apply addAllAt_hash_mem _ _ _ hk
    exact hy
  · have hcf : isCompleted g it = false := by
      cases h : isCompleted g it
      · rfl
      · exact absurd h hcmp
    match hn : nextSym g it with
    | .nt n root =>
      rw [stepItem_eq_of_nt g tok k c it n root hcf hn]
      apply addAllAt_hash_mem _ _ _ hk
      unfold stepKItems at hy
      rw [if_neg (by simp [hcf]), hn] at hy
      unfold stepKItems
      rw [if_neg (by simp [hcf]), hn]
      exact hy
    | .tm t sub =>
      exfalso
      unfold stepKItems at hy
      rw [if_neg (by simp [hcf]), hn] at hy
      simp at hy

theorem passLoop_length (g : Grammar) (tok : Tokhan) (k : Nat) :
    ∀ (fuel idx : Nat) (c c2 : List StateSet),
      passLoop g tok k fuel idx c = some c2 → c2.length = c.length := by
  intro fuel
  induction fuel with
  | zero =>
    intro idx c c2 h
    simp only [passLoop] at h
    split at h
    · exact absurd h (by simp)
    · cases h; rfl
  | succ fuel ih =>
    intro idx c c2 h
    simp only [passLoop] at h
    split at h
    · have := ih (idx + 1) _ c2 h
      rw [this, stepItem_length]
    · cases h; rfl

theorem passLoop_ChartOK (g : Grammar) (tok : Tokhan) (k : Nat) :
    ∀ (fuel idx : Nat) (c c2 : List StateSet),
      passLoop g tok k fuel idx c = some c2 → ChartOK g c → k < c.length →
      ChartOK g c2 := by
  intro fuel
  induction fuel with
  | zero =>
    intro idx c c2 h hc _
    simp only [passLoop] at h
    split at h
    · exact absurd h (by simp)
    · cases h; exact hc
  | succ fuel ih =>
    intro idx c c2 h hc hk
    simp only [passLoop] at h
    split at h
    · rename_i hidx
      have hit : ItemOK g k ((getSet c k).items.getD idx ⟨0, 0, 0, 0⟩) :=
        (hc k hk).2.2 _ (getD_mem _ _ _ hidx)
      exact ih (idx + 1) _ c2 h (stepItem_ChartOK g tok k c _ hc hk hit)
        (by rw [stepItem_length]; exact hk)
    · cases h; exact hc

theorem passLoop_get_other (g : Grammar) (tok : Tokhan) (k : Nat) :
    ∀ (fuel idx : Nat) (c c2 : List StateSet),
      passLoop g tok k fuel idx c = some c2 → ∀ j, j ≠ k → j ≠ k + 1 →
      getSet c2 j = getSet c j := by
  intro fuel
  induction fuel with
  | zero =>
    intro idx c c2 h j _ _
    simp only [passLoop] at h
    split at h
    · exact absurd h (by simp)
    · cases h; rfl
  | succ fuel ih =>
    intro idx c c2 h j hj hj1
    simp only [passLoop] at h
    split at h
    · rw [ih (idx + 1) _ c2 h j hj hj1, stepItem_get_other g tok k j c _ hj hj1]
    · cases h; rfl

theorem passLoop_items_prefix (g : Grammar) (tok : Tokhan) (k : Nat) :
    ∀ (fuel idx : Nat) (c c2 : List StateSet),
      passLoop g tok k fuel idx c = some c2 → ∀ j,
      (getSet c j).items <+: (getSet c2 j).items := by
  intro fuel
  induction fuel with
  | zero =>
    intro idx c c2 h j
    simp only [passLoop] at h
    split at h
    · exact absurd h (by simp)
    · cases h; exact List.prefix_refl _
  | succ fuel ih =>
    intro idx c c2 h j
    simp only [passLoop] at h
    split at h
    · exact List.IsPrefix.trans ( stepItem_items_prefix g tok k j c _)
        (ih (idx + 1) _ c2 h j)
    · cases h; exact List.prefix_refl _

theorem passLoop_itemSet_subset (g : Grammar) (tok : Tokhan) (k : Nat) :
    ∀ (fuel idx : Nat) (c c2 : List StateSet),
      passLoop g tok k fuel idx c = some c2 → ∀ j (h : Nat),
      h ∈ (getSet c j).itemSet → h ∈ (getSet c2 j).itemSet := by
  intro fuel
  induction fuel with
  | zero =>
    intro idx c c2 h j x hx
    simp only [passLoop] at h
    split at h
    · exact absurd h (by simp)
    · cases h; exact hx
  | succ fuel ih =>
    intro idx c c2 h j x hx
    simp only [passLoop] at h
    split at h
    · exact ih (idx + 1) _ c2 h j x (stepItem_itemSet_subset g tok k j c _ x hx)
    · cases h; exact hx

/-! ### The no-empty-rule invariant: items past their first symbol
originate strictly earlier -/

/-- All grammar rules have a non-empty right-hand side (true of the
PromQL grammar; rules out zero-width completions). -/
def NoEmptyRules (g : Grammar) : Prop := ∀ r ∈ g.rules, r.right ≠ []

theorem rhsLen_pos (g : Grammar) (hg : NoEmptyRules g) (rid : Nat)
    (h : rid < g.rules.length) : 1 ≤ rhsLen g rid := by
  have hmem : ruleOf g rid ∈ g.rules := by
    unfold ruleOf
    rw [List.getD_eq_getElem?_getD, List.getElem?_eq_getElem h]
    exact List.getElem_mem h
  have := hg _ hmem
  unfold rhsLen
  cases hr : (ruleOf g rid).right
  · exact absurd hr this
  · simp

/-- Every item that has consumed at least one symbol originates
strictly before its state set. -/
def StrictOK (g : Grammar) (c : List StateSet) : Prop :=
  ∀ j, j < c.length → ∀ it ∈ (getSet c j).items, 1 ≤ it.rulePos → it.origin < j

theorem addAllAt_StrictOK (g : Grammar) (k : Nat) (its : List EarleyItem)
    (hits : ∀ y ∈ its, 1 ≤ y.rulePos → y.origin < k) :
    ∀ c : List StateSet, StrictOK g c → StrictOK g (addAllAt k c its) := by
  induction its with
  | nil => intro c hc; exact hc
  | cons x xs ih =>
    intro c hc
    rw [addAllAt_cons]
    apply ih (fun y hy => hits y (by simp [hy]))
    intro j hj it hit hpos
    simp only [List.length_set] at hj
    by_cases hkj : k = j
    · subst hkj
      rw [getSet_set_self _ _ _ hj] at hit
      rcases Add_fst_cases (getSet c k) x with ⟨_, he⟩ | ⟨_, he⟩ <;> rw [he] at hit
      · exact hc k hj it hit hpos
      · rcases List.mem_append.mp hit with hit | hit
        · exact hc k hj it hit hpos
        · rw [List.mem_singleton] at hit
          subst hit
          exact hits it (by simp) hpos
    · rw [getSet_set_ne _ _ _ _ hkj] at hit
      exact hc j hj it hit hpos

theorem scanOp_StrictOK (g : Grammar) (c : List StateSet) (k : Nat)
    (tok : Tokhan) (it : EarleyItem) (sym : Sym) (hor : it.origin ≤ k)
    (hc : StrictOK g c) : StrictOK g (scanOp c k tok it sym) := by
  rcases scanOp_cases c k tok it sym with h | ⟨hk, h⟩ <;> rw [h]
  · exact hc
  · intro j hj y hy hpos
    simp only [List.length_set] at hj
    by_cases hj1 : k + 1 = j
    · subst hj1
      rw [getSet_set_self _ _ _ hj] at hy
      rcases Add_fst_cases (getSet c (k + 1)) _ with ⟨_, he⟩ | ⟨_, he⟩ <;>
        rw [he] at hy
      · exact hc (k + 1) hj y hy hpos
      · rcases List.mem_append.mp hy with hy | hy
        · exact hc (k + 1) hj y hy hpos
        · rw [List.mem_singleton] at hy
          subst hy
          show it.origin < k + 1
          omega
    · rw [getSet_set_ne _ _ _ _ hj1] at hy
      exact hc j hj y hy hpos

theorem stepItem_StrictOK (g : Grammar) (tok : Tokhan) (k : Nat)
    (c : List StateSet) (it : EarleyItem) (hg : NoEmptyRules g)
    (hc : ChartOK g c) (hs : StrictOK g c) (hk : k < c.length)
    (hit : ItemOK g k it) (hmem : it ∈ (getSet c k).items) :
    StrictOK g (stepItem g tok k c it) := by
  by_cases hcmp : isCompleted g it = true
  · rw [stepItem_eq_of_completed g tok k c it hcmp]
    apply addAllAt_StrictOK g k _ ?_ c hs
    intro y hy _
    unfold stepKItems at hy
    rw [if_pos hcmp] at hy
    rw [List.mem_map] at hy
    obtain ⟨x, hx, rfl⟩ := hy
    -- the completed item consumed at least one symbol, so its origin
    -- is strictly before k; the candidate originates no later
    have h1 : 1 ≤ it.rulePos := by
      have heq : it.rulePos = rhsLen g it.ruleId := by
        have hb := hcmp
        unfold isCompleted at hb
        simpa using hb
      rw [heq]
      exact rhsLen_pos g hg _ hit.1
    have horig : it.origin < k := hs k hk it hmem h1
    have hxmem := (findToComplete_sub g _ _ x hx).1
    have hxok : ItemOK g it.origin x := (hc it.origin (by omega)).2.2 x hxmem
    show x.origin < k
    have := hxok.2.2
    omega
  · have hcf : isCompleted g it = false := by
      cases h : isCompleted g it
      · rfl
      · exact absurd h hcmp
    match hn : nextSym g it with
    | .nt n root =>
      rw [stepItem_eq_of_nt g tok k c it n root hcf hn]
      apply addAllAt_StrictOK g k _ ?_ c hs
      intro y hy hpos
      unfold stepKItems at hy
      rw [if_neg (by simp [hcf]), hn, List.mem_map] at hy
      obtain ⟨rid, _, rfl⟩ := hy
      exact absurd hpos (by simp)
    | .tm t sub =>
      rw [stepItem_eq_of_tm g tok k c it t sub hcf hn]
      exact scanOp_StrictOK g c k tok it _ hit.2.2 hs

theorem passLoop_StrictOK (g : Grammar) (tok : Tokhan) (k : Nat)
    (hg : NoEmptyRules g) :
    ∀ (fuel idx : Nat) (c c2 : List StateSet),
      passLoop g tok k fuel idx c = some c2 → ChartOK g c → StrictOK g c →
      k < c.length → StrictOK g c2 := by
  intro fuel
  induction fuel with
  | zero =>
    intro idx c c2 h hc hs _
    simp only [passLoop] at h
    split at h
    · exact absurd h (by simp)
    · cases h; exact hs
  | succ fuel ih =>
    intro idx c c2 h hc hs hk
    simp only [passLoop] at h
    split at h
    · rename_i hidx
      have hmem := getD_mem (getSet c k).items idx ⟨0, 0, 0, 0⟩ hidx
      have hit : ItemOK g k ((getSet c k).items.getD idx ⟨0, 0, 0, 0⟩) :=
        (hc k hk).2.2 _ hmem
      exact ih (idx + 1) _ c2 h
        (stepItem_ChartOK g tok k c _ hc hk hit)
        (stepItem_StrictOK g tok k c _ hg hc hs hk hit hmem)
        (by rw [stepItem_length]; exact hk)
    · cases h; exact hs

/-! ### Padding equivariance: extra trailing empty sets beyond the
region a pass touches do not affect it -/

theorem getSet_append_left (c pad : List StateSet) (j : Nat)
    (h : j < c.length) : getSet (c ++ pad) j = getSet c j := by
  rw [getSet_eq, getSet_eq, List.getElem?_append_left h]

theorem stepKItems_append (g : Grammar) (k : Nat) (c pad : List StateSet)
    (it : EarleyItem) (hor : it.origin < c.length) :
    stepKItems g k (c ++ pad) it = stepKItems g k c it := by
  unfold stepKItems
  split
  · rw [getSet_append_left _ _ _ hor]
  · rfl

theorem scanOp_pad (c pad : List StateSet) (k : Nat) (tok : Tokhan)
    (it : EarleyItem) (sym : Sym) (hk1 : k + 1 < c.length) :
    scanOp (c ++ pad) k tok it sym = scanOp c k tok it sym ++ pad := by
  unfold scanOp
  have hlen : ¬ ((c ++ pad).length ≤ k + 1) := by
    rw [List.length_append]; omega
  have hlen2 : ¬ (c.length ≤ k + 1) := by omega
  rw [if_neg hlen, if_neg hlen2]
  split
  · rw [getSet_append_left _ _ _ hk1, List.set_append_left _ _ hk1]
  · rfl

theorem stepItem_pad (g : Grammar) (tok : Tokhan) (k : Nat)
    (c pad : List StateSet) (it : EarleyItem) (hk1 : k + 1 < c.length)
    (hor : it.origin < c.length) :
    stepItem g tok k (c ++ pad) it = stepItem g tok k c it ++ pad := by
  by_cases hcmp : isCompleted g it = true
  · rw [stepItem_eq_of_completed g tok k _ it hcmp,
      stepItem_eq_of_completed g tok k c it hcmp,
      stepKItems_append g k c pad it hor, addAllAt_pad _ _ _ _ (by omega)]
  · have hcf : isCompleted g it = false := by
      cases h : isCompleted g it
      · rfl
      · exact absurd h hcmp
    match hn : nextSym g it with
    | .nt n root =>
      rw [stepItem_eq_of_nt g tok k _ it n root hcf hn,
        stepItem_eq_of_nt g tok k c it n root hcf hn,
        stepKItems_append g k c pad it hor, addAllAt_pad _ _ _ _ (by omega)]
    | .tm t sub =>
      rw [stepItem_eq_of_tm g tok k _ it t sub hcf hn,
        stepItem_eq_of_tm g tok k c it t sub hcf hn,
        scanOp_pad c pad k tok it _ hk1]

theorem passLoop_pad (g : Grammar) (tok : Tokhan) (k : Nat) :
    ∀ (fuel idx : Nat) (c pad : List StateSet), ChartOK g c →
      k + 1 < c.length →
      passLoop g tok k fuel idx (c ++ pad) =
        (passLoop g tok k fuel idx c).map (fun d => d ++ pad) := by
  intro fuel
  induction fuel with
  | zero =>
    intro idx c pad _ hk1
    simp only [passLoop]
    rw [getSet_append_left c pad k (by omega)]
    split <;> rfl
  | succ fuel ih =>
    intro idx c pad hc hk1
    simp only [passLoop]
    rw [getSet_append_left c pad k (by omega)]
    split
    · rename_i hidx
      have hmem := getD_mem _ idx ⟨0, 0, 0, 0⟩ hidx
      have hit : ItemOK g k ((getSet c k).items.getD idx ⟨0, 0, 0, 0⟩) :=
        (hc k (by omega)).2.2 _ hmem
      rw [stepItem_pad g tok k c pad _ hk1 (by have := hit.2.2; omega)]
      exact ih (idx + 1) _ pad (stepItem_ChartOK g tok k c _ hc (by omega) hit)
        (by rw [stepItem_length]; exact hk1)
    · rfl

theorem drive_pad (g : Grammar) (fuel : Nat) :
    ∀ (ts : List Tokhan) (k : Nat) (c pad : List StateSet), ChartOK g c →
      k + ts.length < c.length →
      drive g fuel ts k (c ++ pad) =
        (drive g fuel ts k c).map (fun d => d ++ pad) := by
  intro ts
  induction ts with
  | nil => intro k c pad _ _; rfl
  | cons t ts ih =>
    intro k c pad hc hk
    simp only [List.length_cons] at hk
    simp only [drive]
    rw [passLoop_pad g t k fuel 0 c pad hc (by omega)]
    cases hp : passLoop g t k fuel 0 c with
    | none => rfl
    | some c2 =>
      have hlen := passLoop_length g t k fuel 0 c c2 hp
      exact ih (k + 1) c2 pad
        (passLoop_ChartOK g t k fuel 0 c c2 hp hc (by omega)) (by omega)

/-! ### Token independence: a pass over set `k` run with two different
tokens produces charts that agree everywhere except set `k+1` (only the
scan step reads the token, and it writes only set `k+1`) -/

/-- Two charts of the same length that agree on every set except
(possibly) index `m`. -/
def RelExcept (m : Nat) (c1 c2 : List StateSet) : Prop :=
  c1.length = c2.length ∧ ∀ j, j ≠ m → getSet c1 j = getSet c2 j

theorem addAllAt_rel (k m : Nat) (its : List EarleyItem) (hkm : k ≠ m) :
    ∀ c1 c2 : List StateSet, k < c1.length → RelExcept m c1 c2 →
      RelExcept m (addAllAt k c1 its) (addAllAt k c2 its) := by
  induction its with
  | nil => intro c1 c2 _ h; exact h
  | cons x xs ih =>
    intro c1 c2 hk ⟨hlen, hrel⟩
    rw [addAllAt_cons, addAllAt_cons]
    have hsets : getSet c1 k = getSet c2 k := hrel k hkm
    rw [hsets]
    apply ih _ _ (by simpa using hk)
    refine ⟨by simp [hlen], fun j hj => ?_⟩
    by_cases hjk : k = j
    · subst hjk
      rw [getSet_set_self _ _ _ (by simpa using hk),
        getSet_set_self _ _ _ (by rw [← hlen] at *; simpa using hk)]
    · rw [getSet_set_ne _ _ _ _ hjk, getSet_set_ne _ _ _ _ hjk]
      exact hrel j hj

theorem stepItem_rel (g : Grammar) (t t' : Tokhan) (k : Nat)
    (c1 c2 : List StateSet) (it : EarleyItem) (hk : k < c1.length)
    (hor : it.origin ≤ k) (hrel : RelExcept (k + 1) c1 c2) :
    RelExcept (k + 1) (stepItem g t k c1 it) (stepItem g t' k c2 it) := by
  obtain ⟨hlen, hget⟩ := hrel
  by_cases hcmp : isCompleted g it = true
  · rw [stepItem_eq_of_completed g t k c1 it hcmp,
      stepItem_eq_of_completed g t' k c2 it hcmp]
    have hsk : stepKItems g k c2 it = stepKItems g k c1 it := by
      unfold stepKItems
      rw [if_pos hcmp, if_pos hcmp, hget it.origin (by omega)]
    rw [hsk]
    exact addAllAt_rel k (k + 1) _ (by omega) c1 c2 hk ⟨hlen, hget⟩
  · have hcf : isCompleted g it = false := by
      cases h : isCompleted g it
      · rfl
      · exact absurd h hcmp
    match hn : nextSym g it with
    | .nt n root =>
      rw [stepItem_eq_of_nt g t k c1 it n root hcf hn,
        stepItem_eq_of_nt g t' k c2 it n root hcf hn]
      have hsk : stepKItems g k c2 it = stepKItems g k c1 it := by
        unfold stepKItems
        rw [if_neg (by simp [hcf]), if_neg (by simp [hcf])]
      rw [hsk]
      exact addAllAt_rel k (k + 1) _ (by omega) c1 c2 hk ⟨hlen, hget⟩
    | .tm ty sub =>
      rw [stepItem_eq_of_tm g t k c1 it ty sub hcf hn,
        stepItem_eq_of_tm g t' k c2 it ty sub hcf hn]
      refine ⟨by rw [scanOp_length, scanOp_length, hlen], fun j hj => ?_⟩
      rw [scanOp_get_ne _ _ _ _ _ _ hj, scanOp_get_ne _ _ _ _ _ _ hj]
      exact hget j hj

/-- Running the same pass with different tokens: if the run with token
`t` succeeds, the run with token `t'` succeeds too and the results
agree everywhere except set `k+1`. -/
theorem passLoop_rel (g : Grammar) (t t' : Tokhan) (k : Nat) :
    ∀ (fuel idx : Nat) (c1 c2 d1 : List StateSet),
      passLoop g t k fuel idx c1 = some d1 → ChartOK g c1 →
      k < c1.length → RelExcept (k + 1) c1 c2 →
      ∃ d2, passLoop g t' k fuel idx c2 = some d2 ∧ RelExcept (k + 1) d1 d2 := by
  intro fuel
  induction fuel with
  | zero =>
    intro idx c1 c2 d1 h _ _ hrel
    simp only [passLoop] at h ⊢
    rw [← hrel.2 k (by omega)]
    split at h <;> rename_i hidx
    · exact absurd h (by simp)
    · cases h
      exact ⟨c2, by rw [if_neg hidx], hrel⟩
  | succ fuel ih =>
    intro idx c1 c2 d1 h hc hk hrel
    simp only [passLoop] at h ⊢
    rw [← hrel.2 k (by omega)]
    split at h <;> rename_i hidx
    · rw [if_pos hidx]
      have hmem := getD_mem _ idx ⟨0, 0, 0, 0⟩ hidx
      have hit : ItemOK g k ((getSet c1 k).items.getD idx ⟨0, 0, 0, 0⟩) :=
        (hc k hk).2.2 _ hmem
      exact ih (idx + 1) _ _ d1 h
        (stepItem_ChartOK g t k c1 _ hc hk hit)
        (by rw [stepItem_length]; exact hk)
        (stepItem_rel g t t' k c1 c2 _ hk hit.2.2 hrel)
    · rw [if_neg hidx]
      cases h
      exact ⟨c2, rfl, hrel⟩

/-! ### Re-running a pass over an already-closed set is a no-op: the
pass computes the same result when set `k` is replaced up front by its
own final value -/

theorem stepItem_commute (g : Grammar) (tok : Tokhan) (k : Nat)
    (cB : List StateSet) (S : StateSet) (x : EarleyItem)
    (hg : NoEmptyRules g) (hc : ChartOK g cB) (hs : StrictOK g cB)
    (hk : k < cB.length) (hxok : ItemOK g k x)
    (hxin : x ∈ (getSet cB k).items)
    (habs : ∀ y ∈ stepKItems g k cB x, badhash y ∈ S.itemSet) :
    stepItem g tok k (cB.set k S) x = (stepItem g tok k cB x).set k S := by
  have habs2 : ∀ y ∈ stepKItems g k cB x,
      badhash y ∈ (getSet (cB.set k S) k).itemSet := by
    intro y hy
    rw [getSet_set_self _ _ _ hk]
    exact habs y hy
  by_cases hcmp : isCompleted g x = true
  · -- the completed item consumed ≥ 1 symbol, so its origin set is a
    -- strictly earlier, untouched set: the candidate snapshot agrees
    have h1 : 1 ≤ x.rulePos := by
      have hb := hcmp
      unfold isCompleted at hb
      have heq : x.rulePos = rhsLen g x.ruleId := by simpa using hb
      rw [heq]
      exact rhsLen_pos g hg _ hxok.1
    have horig : x.origin < k := hs k hk x hxin h1
    have hsk : stepKItems g k (cB.set k S) x = stepKItems g k cB x := by
      unfold stepKItems
      rw [if_pos hcmp, if_pos hcmp, getSet_set_ne _ _ _ _ (by omega)]
    rw [stepItem_eq_of_completed g tok k _ x hcmp, hsk,
      stepItem_eq_of_completed g tok k cB x hcmp,
      addAllAt_absorb k _ _ habs2, set_after_addAllAt]
  · have hcf : isCompleted g x = false := by
      cases h : isCompleted g x
      · rfl
      · exact absurd h hcmp
    match hn : nextSym g x with
    | .nt n root =>
      have hsk : stepKItems g k (cB.set k S) x = stepKItems g k cB x := by
        unfold stepKItems
        rw [if_neg (by simp [hcf]), if_neg (by simp [hcf])]
      rw [stepItem_eq_of_nt g tok k _ x n root hcf hn, hsk,
        stepItem_eq_of_nt g tok k cB x n root hcf hn,
        addAllAt_absorb k _ _ habs2, set_after_addAllAt]
    | .tm ty sub =>
      rw [stepItem_eq_of_tm g tok k _ x ty sub hcf hn,
        stepItem_eq_of_tm g tok k cB x ty sub hcf hn]
      unfold scanOp
      rw [List.length_set]
      split
      · rfl
      · rw [getSet_set_ne _ _ _ _ (by omega)]
        split
        · exact List.set_comm _ _ _ (by omega)
        · rfl

theorem passLoop_rerun (g : Grammar) (tok : Tokhan) (k : Nat)
    (hg : NoEmptyRules g) :
    ∀ (fuel idx : Nat) (cB cB2 : List StateSet),
      passLoop g tok k fuel idx cB = some cB2 →
      ChartOK g cB → StrictOK g cB → k < cB.length →
      passLoop g tok k fuel idx (cB.set k (getSet cB2 k)) = some cB2 := by
  intro fuel
  induction fuel with
  | zero =>
    intro idx cB cB2 h hc hs hk
    simp only [passLoop] at h ⊢
    split at h <;> rename_i hidx
    · exact absurd h (by simp)
    · cases h
      rw [set_getSet_self _ _ hk, if_neg hidx]
  | succ fuel ih =>
    intro idx cB cB2 h hc hs hk
    simp only [passLoop] at h ⊢
    split at h <;> rename_i hidx
    · have hmem := getD_mem _ idx ⟨0, 0, 0, 0⟩ hidx
      have hxok : ItemOK g k ((getSet cB k).items.getD idx ⟨0, 0, 0, 0⟩) :=
        (hc k hk).2.2 _ hmem
      have hpre : (getSet cB k).items <+: (getSet cB2 k).items :=
        List.IsPrefix.trans ( stepItem_items_prefix g tok k k cB _)
          ( passLoop_items_prefix g tok k fuel (idx + 1) _ cB2 h k)
      have hidx2 : idx < (getSet (cB.set k (getSet cB2 k)) k).items.length := by
        rw [getSet_set_self _ _ _ hk]
        exact lt_of_lt_of_le hidx (List.IsPrefix.length_le hpre)
      rw [if_pos hidx2]
      have hgetD : (getSet (cB.set k (getSet cB2 k)) k).items.getD idx
          ⟨0, 0, 0, 0⟩ = (getSet cB k).items.getD idx ⟨0, 0, 0, 0⟩ := by
        rw [getSet_set_self _ _ _ hk]
        exact prefix_getD _ _ hpre idx hidx _
      rw [hgetD]
      have habs : ∀ y ∈ stepKItems g k cB ((getSet cB k).items.getD idx
          ⟨0, 0, 0, 0⟩), badhash y ∈ (getSet cB2 k).itemSet := by
        intro y hy
        exact passLoop_itemSet_subset g tok k fuel (idx + 1) _ cB2 h k _
          (stepItem_hash_mem g tok k cB _ hk y hy)
      rw [stepItem_commute g tok k cB (getSet cB2 k) _ hg hc hs hk hxok
        hmem habs]
      exact ih (idx + 1) _ cB2 h
        (stepItem_ChartOK g tok k cB _ hc hk hxok)
        (stepItem_StrictOK g tok k cB _ hg hc hs hk hxok hmem)
        (by rw [stepItem_length]; exact hk)
    · cases h
      rw [set_getSet_self _ _ hk, if_neg hidx]

/-! ### Drive-level utilities for the incremental-reparse equivalence -/

theorem drive_length (g : Grammar) (fuel : Nat) :
    ∀ (ts : List Tokhan) (k : Nat) (c c2 : List StateSet),
      drive g fuel ts k c = some c2 → c2.length = c.length := by
  intro ts
  induction ts with
  | nil =>
    intro k c c2 h
    cases h
    rfl
  | cons t ts ih =>
    intro k c c2 h
    simp only [drive] at h
    cases hp : passLoop g t k fuel 0 c with
    | none => rw [hp] at h; exact absurd h (by simp)
    | some c1 =>
      rw [hp] at h
      rw [ih (k + 1) c1 c2 h, passLoop_length g t k fuel 0 c c1 hp]

theorem drive_append (g : Grammar) (fuel : Nat) :
    ∀ (xs ys : List Tokhan) (k : Nat) (c : List StateSet),
      drive g fuel (xs ++ ys) k c =
        (drive g fuel xs k c).bind (fun c2 => drive g fuel ys (k + xs.length) c2) := by
  intro xs
  induction xs with
  | nil => intro ys k c; rfl
  | cons x xs ih =>
    intro ys k c
    simp only [List.cons_append, drive]
    cases hp : passLoop g x k fuel 0 c with
    | none => rfl
    | some c1 =>
      show drive g fuel (xs ++ ys) (k + 1) c1 =
        (drive g fuel xs (k + 1) c1).bind
          (fun c2 => drive g fuel ys (k + (x :: xs).length) c2)
      rw [ih ys (k + 1) c1]
      have harith : k + 1 + xs.length = k + (x :: xs).length := by
        simp only [List.length_cons]
        omega
      rw [harith]

theorem drive_get_other (g : Grammar) (fuel : Nat) :
    ∀ (ts : List Tokhan) (k : Nat) (c c2 : List StateSet),
      drive g fuel ts k c = some c2 → ∀ j, j < k ∨ k + ts.length < j →
      getSet c2 j = getSet c j := by
  intro ts
  induction ts with
  | nil =>
    intro k c c2 h j _
    cases h
    rfl
  | cons t ts ih =>
    intro k c c2 h j hj
    simp only [drive] at h
    cases hp : passLoop g t k fuel 0 c with
    | none => rw [hp] at h; exact absurd h (by simp)
    | some c1 =>
      rw [hp] at h
      simp only [List.length_cons] at hj
      rw [ih (k + 1) c1 c2 h j (by omega)]
      exact passLoop_get_other g t k fuel 0 c c1 hp j (by omega) (by omega)

theorem drive_StrictOK (g : Grammar) (fuel : Nat) (hg : NoEmptyRules g) :
    ∀ (ts : List Tokhan) (k : Nat) (c c2 : List StateSet),
      drive g fuel ts k c = some c2 → ChartOK g c → StrictOK g c →
      k + ts.length < c.length → StrictOK g c2 := by
  intro ts
  induction ts with
  | nil =>
    intro k c c2 h _ hs _
    cases h
    exact hs
  | cons t ts ih =>
    intro k c c2 h hc hs hk
    simp only [drive] at h
    simp only [List.length_cons] at hk
    cases hp : passLoop g t k fuel 0 c with
    | none => rw [hp] at h; exact absurd h (by simp)
    | some c1 =>
      rw [hp] at h
      have hlen := passLoop_length g t k fuel 0 c c1 hp
      exact ih (k + 1) c1 c2 h
        (passLoop_ChartOK g t k fuel 0 c c1 hp hc (by omega))
        (passLoop_StrictOK g t k hg fuel 0 c c1 hp hc hs (by omega))
        (by omega)

theorem fuelBound_mono (g : Grammar) (a b : Nat) (h : a ≤ b) :
    fuelBound g a ≤ fuelBound g b := by
  unfold fuelBound
  exact Nat.mul_le_mul_left _ (Nat.mul_le_mul_left _ h)

theorem commonPrefixLen_le_left :
    ∀ (a b : List Tokhan), commonPrefixLen a b ≤ a.length := by
  intro a
  induction a with
  | nil => intro b; simp [commonPrefixLen]
  | cons x xs ih =>
    intro b
    cases b with
    | nil => simp [commonPrefixLen]
    | cons y ys =>
      simp only [commonPrefixLen, List.length_cons]
      split
      · exact Nat.succ_le_succ (ih ys)
      · omega

theorem foldAdd_pred (P : EarleyItem → Prop) :
    ∀ (l : List EarleyItem) (s : StateSet), (∀ it ∈ s.items, P it) →
      (∀ it ∈ l, P it) → ∀ it ∈ (foldAdd s l).items, P it := by
  intro l
  induction l with
  | nil => intro s hs _ it hit; exact hs it hit
  | cons z zs ih =>
    intro s hs hl it hit
    have hit2 : it ∈ (foldAdd (s.Add z).1 zs).items := hit
    apply ih (s.Add z).1 ?_ (fun y hy => hl y (by simp [hy])) it hit2
    intro y hy
    rcases Add_fst_cases s z with ⟨_, h⟩ | ⟨_, h⟩ <;> rw [h] at hy
    · exact hs y hy
    · rcases List.mem_append.mp hy with hy | hy
      · exact hs y hy
      · rw [List.mem_singleton] at hy
        subst hy
        exact hl _ (by simp)

theorem initial_strictOK (g : Grammar) (n : Nat) :
    StrictOK g (resizeChart [initialStateSet g] n) := by
  intro j hj it hit hpos
  by_cases hj0 : j = 0
  · subst hj0
    rw [getSet_resize_lo _ _ _ (by simp)] at hit
    have h0 : it.rulePos = 0 := by
      apply foldAdd_pred (fun it => it.rulePos = 0) _ emptySet ?_ ?_ it hit
      · intro y hy
        simp [emptySet] at hy
      · intro y hy
        rw [List.mem_map] at hy
        obtain ⟨rid, _, rfl⟩ := hy
        rfl
    omega
  · rw [getSet_resize_hi _ _ _ (by simp; omega)] at hit
    simp [emptySet] at hit

theorem getSet_append_replicate (c : List StateSet) (m j : Nat)
    (h : c.length ≤ j) :
    getSet (c ++ List.replicate m emptySet) j = emptySet := by
  rw [getSet_eq, List.getElem?_append_right h]
  by_cases h2 : j - c.length < m
  · rw [List.getElem?_replicate, if_pos h2]
    rfl
  · rw [List.getElem?_replicate, if_neg h2]
    rfl

theorem ChartOK_pad (g : Grammar) (c : List StateSet) (m : Nat)
    (hc : ChartOK g c) : ChartOK g (c ++ List.replicate m emptySet) := by
  intro k hk
  by_cases h : k < c.length
  · rw [getSet_append_left _ _ _ h]
    exact hc k h
  · rw [getSet_append_replicate _ _ _ (by omega)]
    exact SetOK_empty g k

theorem StrictOK_pad (g : Grammar) (c : List StateSet) (m : Nat)
    (hs : StrictOK g c) : StrictOK g (c ++ List.replicate m emptySet) := by
  intro j hj it hit hpos
  by_cases h : j < c.length
  · rw [getSet_append_left _ _ _ h] at hit
    exact hs j h it hit hpos
  · rw [getSet_append_replicate _ _ _ (by omega)] at hit
    simp [emptySet] at hit

theorem chart_ext (c1 c2 : List StateSet) (hlen : c1.length = c2.length)
    (h : ∀ j, getSet c1 j = getSet c2 j) : c1 = c2 := by
  apply List.ext_getElem?
  intro j
  by_cases hj : j < c1.length
  · rw [List.getElem?_eq_getElem hj, List.getElem?_eq_getElem (by omega)]
    have hgs := h j
    rw [getSet_eq, getSet_eq, List.getElem?_eq_getElem hj,
      List.getElem?_eq_getElem (show j < c2.length by omega)] at hgs
    simpa using hgs
  · rw [List.getElem?_eq_none (by omega), List.getElem?_eq_none (by omega)]

theorem getSet_take (c : List StateSet) (n j : Nat) (hj : j < n) :
    getSet (c.take n) j = getSet c j := by
  rw [getSet_eq, getSet_eq, List.getElem?_take, if_pos hj]

theorem take_eq_of_getSet (c1 c2 : List StateSet) (n : Nat)
    (h1 : n ≤ c1.length) (h2 : n ≤ c2.length)
    (h : ∀ j, j < n → getSet c1 j = getSet c2 j) :
    c1.take n = c2.take n := by
  apply List.ext_getElem?
  intro j
  rw [List.getElem?_take, List.getElem?_take]
  by_cases hj : j < n
  · rw [if_pos hj, if_pos hj, List.getElem?_eq_getElem (by omega),
      List.getElem?_eq_getElem (show j < c2.length by omega)]
    have hgs := h j hj
    rw [getSet_eq, getSet_eq, List.getElem?_eq_getElem (by omega),
      List.getElem?_eq_getElem (show j < c2.length by omega)] at hgs
    simpa using hgs
  · rw [if_neg hj, if_neg hj]

/-- Splitting an initial chart sized `n` into one sized `m` plus
trailing empties. -/
theorem resize_split (s : StateSet) (m n : Nat) (h1 : 1 ≤ m) (h : m ≤ n) :
    resizeChart [s] n = resizeChart [s] m ++ List.replicate (n - m) emptySet := by
  unfold resizeChart
  rw [List.append_assoc, ← List.replicate_add]
  have he : n - [s].length = (m - [s].length) + (n - m) := by
    simp only [List.length_cons, List.length_nil]
    omega
  rw [he]

/-- Normal form of the incremental chart construction: invalidate after
`L`, truncate to the new length, resize to the new length. -/
theorem incChart_eq (c : List StateSet) (L Np : Nat) (hL : L + 1 ≤ c.length)
    (hLN : L ≤ Np) :
    resizeChart ((invalidateStartingAt c (L + 1)).take (Np + 1)) (Np + 1)
      = c.take (L + 1) ++ List.replicate (Np - L) emptySet := by
  have hXlen : ((invalidateStartingAt c (L + 1)).take (Np + 1)).length ≤ Np + 1 := by
    rw [List.length_take]
    omega
  have hInvLen : (invalidateStartingAt c (L + 1)).length = c.length := by
    unfold invalidateStartingAt
    rw [List.length_append, List.length_take, List.length_replicate]
    omega
  have hTlen : (c.take (L + 1)).length = L + 1 := by
    rw [List.length_take]
    omega
  apply chart_ext
  · rw [resizeChart_length _ _ hXlen, List.length_append, hTlen,
      List.length_replicate]
    omega
  · intro j
    by_cases hj : j < L + 1
    · have hjX : j < ((invalidateStartingAt c (L + 1)).take (Np + 1)).length := by
        rw [List.length_take, hInvLen]
        omega
      rw [getSet_resize_lo _ _ _ hjX, getSet_take _ _ _ (by omega)]
      unfold invalidateStartingAt
      rw [getSet_append_left _ _ _ (by rw [hTlen]; omega),
        getSet_append_left _ _ _ (by rw [hTlen]; omega)]
    · have hRHS : getSet (c.take (L + 1) ++ List.replicate (Np - L) emptySet) j
          = emptySet := getSet_append_replicate _ _ _ (by rw [hTlen]; omega)
      rw [hRHS]
      by_cases hjX : j < ((invalidateStartingAt c (L + 1)).take (Np + 1)).length
      · rw [getSet_resize_lo _ _ _ hjX]
        have hjN : j < Np + 1 := by
          rw [List.length_take] at hjX
          omega
        rw [getSet_take _ _ _ hjN]
        unfold invalidateStartingAt
        exact getSet_append_replicate _ _ _ (by rw [hTlen]; omega)
      · exact getSet_resize_hi _ _ _ (by omega)

/-- Claim C2: re-parsing incrementally — retaining the previous chart's
state sets for the longest common token prefix `L` (records equal on the
prefix), invalidating the sets from position `L+1` on, resizing to the
new length, and driving the engine from position `L` over the new
tokens — produces exactly the chart of a full from-scratch parse of the
new stream, set for set (the model adds items in a fixed order, so
set-level equality here is the claim's "same items" up to ordering).
Hypotheses: rules have non-empty right-hand sides (true of the PromQL
grammar), fuel covers both parses, and the new stream strictly extends
the common prefix. -/
theorem incremental_eq_full (g : Grammar) (fuel : Nat)
    (T Tp : List Tokhan) (prevChart : List StateSet)
    (hg : NoEmptyRules g)
    (hfuel1 : fuelBound g (T.length + 1) ≤ fuel)
    (hfuel2 : fuelBound g (Tp.length + 1) ≤ fuel)
    (hprev : fullParse g fuel T = some prevChart)
    (hpre : T.take (commonPrefixLen T Tp) = Tp.take (commonPrefixLen T Tp))
    (hlt : commonPrefixLen T Tp < Tp.length) :
    incrementalReparse g fuel T prevChart Tp = fullParse g fuel Tp := by
  unfold incrementalReparse
  set L := commonPrefixLen T Tp with hLdef
  have hLle : L ≤ T.length := by
    rw [hLdef]
    exact commonPrefixLen_le_left T Tp
  have htakeLen : (T.take L).length = L := by
    rw [List.length_take]
    omega
  have hfuelL2 : fuelBound g (L + 2) ≤ fuel :=
    le_trans (fuelBound_mono g _ _ (by omega)) hfuel2
  have hd0len : (resizeChart [initialStateSet g] (L + 2)).length = L + 2 :=
    resizeChart_length _ _ (by simp only [List.length_cons, List.length_nil]; omega)
  have hd0ok : ChartOK g (resizeChart [initialStateSet g] (L + 2)) :=
    fullChart_ChartOK g _
  have hd0strict : StrictOK g (resizeChart [initialStateSet g] (L + 2)) :=
    initial_strictOK g _
  obtain ⟨c1', hc1eq, hc1ok, hc1len⟩ := drive_some g fuel (T.take L) 0
    (resizeChart [initialStateSet g] (L + 2)) hd0ok
    (by rw [htakeLen, hd0len]; omega)
    (by rw [hd0len]; exact hfuelL2)
  have hc1len2 : c1'.length = L + 2 := by rw [hc1len, hd0len]
  have hc1strict : StrictOK g c1' := drive_StrictOK g fuel hg (T.take L) 0 _ c1'
    hc1eq hd0ok hd0strict (by rw [htakeLen, hd0len]; omega)
  have hc1top : getSet c1' (L + 1) = emptySet := by
    rw [drive_get_other g fuel (T.take L) 0 _ c1' hc1eq (L + 1)
      (Or.inr (by rw [htakeLen]; omega))]
    exact getSet_resize_hi _ _ _
      (by simp only [List.length_cons, List.length_nil]; omega)
  have hTp_take : Tp.take L = T.take L := hpre.symm
  have hfullTp : fullParse g fuel Tp = drive g fuel (Tp.drop L) L
      (c1' ++ List.replicate (Tp.length + 1 - (L + 2)) emptySet) := by
    have h0 : fullParse g fuel Tp = drive g fuel (Tp.take L ++ Tp.drop L) 0
        (resizeChart [initialStateSet g] (Tp.length + 1)) := by
      rw [List.take_append_drop]
      rfl
    rw [h0, resize_split (initialStateSet g) (L + 2) (Tp.length + 1)
        (by omega) (by omega), drive_append, hTp_take,
      drive_pad g fuel (T.take L) 0 _ _ hd0ok (by rw [htakeLen, hd0len]; omega),
      hc1eq]
    show drive g fuel (Tp.drop L) (0 + (T.take L).length)
        (c1' ++ List.replicate (Tp.length + 1 - (L + 2)) emptySet) =
      drive g fuel (Tp.drop L) L
        (c1' ++ List.replicate (Tp.length + 1 - (L + 2)) emptySet)
    rw [htakeLen, Nat.zero_add]
  rcases Nat.lt_or_ge L T.length with hLN | hLN
  · -- the previous stream continued past the common prefix
    have hfullT : fullParse g fuel T = drive g fuel (T.drop L) L
        (c1' ++ List.replicate (T.length + 1 - (L + 2)) emptySet) := by
      have h0 : fullParse g fuel T = drive g fuel (T.take L ++ T.drop L) 0
          (resizeChart [initialStateSet g] (T.length + 1)) := by
        rw [List.take_append_drop]
        rfl
      rw [h0, resize_split (initialStateSet g) (L + 2) (T.length + 1)
          (by omega) (by omega), drive_append,
        drive_pad g fuel (T.take L) 0 _ _ hd0ok (by rw [htakeLen, hd0len]; omega),
        hc1eq]
      show drive g fuel (T.drop L) (0 + (T.take L).length)
          (c1' ++ List.replicate (T.length + 1 - (L + 2)) emptySet) =
        drive g fuel (T.drop L) L
          (c1' ++ List.replicate (T.length + 1 - (L + 2)) emptySet)
      rw [htakeLen, Nat.zero_add]
    have hprevDrive0 : drive g fuel (T.drop L) L
        (c1' ++ List.replicate (T.length + 1 - (L + 2)) emptySet)
        = some prevChart := by
      rw [← hfullT]
      exact hprev
    obtain ⟨tA, restT, hdropT⟩ : ∃ t r, T.drop L = t :: r := by
      cases hD : T.drop L with
      | nil =>
        have h1 : T.length - L = 0 := by
          rw [← List.length_drop, hD]
          rfl
        omega
      | cons t r => exact ⟨t, r, rfl⟩
    rw [hdropT] at hprevDrive0
    simp only [drive] at hprevDrive0
    rw [passLoop_pad g tA L fuel 0 c1' _ hc1ok (by rw [hc1len2]; omega)]
      at hprevDrive0
    obtain ⟨d2core, hd2eq, _, hd2len⟩ := passLoop_some g tA L fuel 0 c1' hc1ok
      (by rw [hc1len2]; omega) (by rw [hc1len2]; exact hfuelL2)
    rw [hd2eq] at hprevDrive0
    have hprevDrive : drive g fuel restT (L + 1)
        (d2core ++ List.replicate (T.length + 1 - (L + 2)) emptySet)
        = some prevChart := hprevDrive0
    have hprevLen : prevChart.length = T.length + 1 := by
      rw [drive_length g fuel restT (L + 1) _ prevChart hprevDrive,
        List.length_append, hd2len, hc1len2, List.length_replicate]
      omega
    have hprevPre : ∀ j, j < L + 1 → getSet prevChart j = getSet d2core j := by
      intro j hj
      rw [drive_get_other g fuel restT (L + 1) _ prevChart hprevDrive j
        (Or.inl hj),
        getSet_append_left _ _ _ (by rw [hd2len, hc1len2]; omega)]
    obtain ⟨tB, restTp, hdropTp⟩ : ∃ t r, Tp.drop L = t :: r := by
      cases hD : Tp.drop L with
      | nil =>
        have h1 : Tp.length - L = 0 := by
          rw [← List.length_drop, hD]
          rfl
        omega
      | cons t r => exact ⟨t, r, rfl⟩
    obtain ⟨e2core, he2eq, _, he2len⟩ := passLoop_some g tB L fuel 0 c1' hc1ok
      (by rw [hc1len2]; omega) (by rw [hc1len2]; exact hfuelL2)
    obtain ⟨e2', he2'eq, he2'rel⟩ := passLoop_rel g tA tB L fuel 0 c1' c1'
      d2core hd2eq hc1ok (by rw [hc1len2]; omega) ⟨rfl, fun j _ => rfl⟩
    have he2'unique : e2' = e2core := by
      have h := he2eq.symm.trans he2'eq
      exact (Option.some.inj h).symm
    rw [he2'unique] at he2'rel
    have hSL : getSet d2core L = getSet e2core L := he2'rel.2 L (by omega)
    have hcInc : resizeChart ((invalidateStartingAt prevChart (L + 1)).take
        (Tp.length + 1)) (Tp.length + 1) =
        (c1' ++ List.replicate (Tp.length + 1 - (L + 2)) emptySet).set L
          (getSet e2core L) := by
      rw [incChart_eq prevChart L Tp.length (by rw [hprevLen]; omega) (by omega)]
      apply chart_ext
      · rw [List.length_append, List.length_take, List.length_replicate,
          List.length_set, List.length_append, hc1len2, List.length_replicate,
          hprevLen]
        omega
      · intro j
        rcases Nat.lt_trichotomy j L with hj | hj | hj
        · rw [getSet_append_left _ _ _ (by rw [List.length_take, hprevLen]; omega),
            getSet_take _ _ _ (by omega), hprevPre j (by omega),
            passLoop_get_other g tA L fuel 0 c1' d2core hd2eq j (by omega)
              (by omega),
            getSet_set_ne _ _ _ _ (by omega),
            getSet_append_left _ _ _ (by rw [hc1len2]; omega)]
        · subst hj
          rw [getSet_append_left _ _ _ (by rw [List.length_take, hprevLen]; omega),
            getSet_take _ _ _ (by omega), hprevPre L (by omega),
            getSet_set_self _ _ _
              (by rw [List.length_append, hc1len2]; omega),
            hSL]
        · rw [getSet_append_replicate _ _ _
              (by rw [List.length_take, hprevLen]; omega),
            getSet_set_ne _ _ _ _ (by omega)]
          by_cases hj1 : j = L + 1
          · subst hj1
            rw [getSet_append_left _ _ _ (by rw [hc1len2]; omega), hc1top]
          · rw [getSet_append_replicate _ _ _ (by rw [hc1len2]; omega)]
    rw [hfullTp, hdropTp, hcInc]
    simp only [drive]
    have hpassP : passLoop g tB L fuel 0
        (c1' ++ List.replicate (Tp.length + 1 - (L + 2)) emptySet) =
        some (e2core ++ List.replicate (Tp.length + 1 - (L + 2)) emptySet) := by
      rw [passLoop_pad g tB L fuel 0 c1' _ hc1ok (by rw [hc1len2]; omega), he2eq]
      rfl
    have hSL2 : getSet e2core L = getSet
        (e2core ++ List.replicate (Tp.length + 1 - (L + 2)) emptySet) L :=
      (getSet_append_left _ _ _ (by rw [he2len, hc1len2]; omega)).symm
    rw [hSL2, passLoop_rerun g tB L hg fuel 0 _ _ hpassP
        (ChartOK_pad g c1' _ hc1ok) (StrictOK_pad g c1' _ hc1strict)
        (by rw [List.length_append, hc1len2]; omega),
      hpassP]
  · -- the common prefix is the whole previous stream
    have hLeq : L = T.length := le_antisymm hLle hLN
    have hT_take : T.take L = T := by
      rw [hLeq]
      simp
    have hc0ok : ChartOK g (resizeChart [initialStateSet g] (L + 1)) :=
      fullChart_ChartOK g _
    have hc0len : (resizeChart [initialStateSet g] (L + 1)).length = L + 1 :=
      resizeChart_length _ _
        (by simp only [List.length_cons, List.length_nil]; omega)
    have hprev2 : drive g fuel T 0 (resizeChart [initialStateSet g] (L + 1))
        = some prevChart := by
      have h0 : fullParse g fuel T = drive g fuel T 0
          (resizeChart [initialStateSet g] (L + 1)) := by
        unfold fullParse
        rw [hLeq]
      rw [← h0]
      exact hprev
    have hc1'eq : c1' = prevChart ++ List.replicate ((L + 2) - (L + 1))
        emptySet := by
      have h2 : drive g fuel (T.take L) 0
          (resizeChart [initialStateSet g] (L + 2)) =
          some (prevChart ++ List.replicate ((L + 2) - (L + 1)) emptySet) := by
        rw [resize_split (initialStateSet g) (L + 1) (L + 2) (by omega)
            (by omega), hT_take,
          drive_pad g fuel T 0 _ _ hc0ok (by rw [hc0len]; omega), hprev2]
        rfl
      have h3 := hc1eq.symm.trans h2
      exact Option.some.inj h3
    have hprevLen1 : prevChart.length = L + 1 := by
      rw [drive_length g fuel T 0 _ prevChart hprev2, hc0len]
    have hcInc1 : resizeChart ((invalidateStartingAt prevChart (L + 1)).take
        (Tp.length + 1)) (Tp.length + 1) =
        c1' ++ List.replicate (Tp.length + 1 - (L + 2)) emptySet := by
      rw [incChart_eq prevChart L Tp.length (by rw [hprevLen1])
          (by omega),
        List.take_of_length_le (by rw [hprevLen1]), hc1'eq,
        List.append_assoc, ← List.replicate_add]
      congr 2
      omega
    rw [hfullTp, hcInc1]

/-- A tiny concrete instance for the incremental-reparse equivalence:
one root rule `S → NUM EOF`, previous stream `[NUM]`, new stream
`[NUM, EOF]` (one token appended). -/
def c2G : Grammar :=
  ⟨[⟨"S", true, [Sym.tm TokenType.NUM none, Sym.tm TokenType.EOF none]⟩]⟩

def c2TokN : Tokhan := ⟨[0x31], TokenType.NUM, 0, 1⟩

def c2TokE : Tokhan := ⟨[], TokenType.EOF, 1, 1⟩

def c2Fuel : Nat := fuelBound c2G 3

def c2Prev : List StateSet := (fullParse c2G c2Fuel [c2TokN]).getD []

theorem incremental_eq_full_witness :
    incrementalReparse c2G c2Fuel [c2TokN] c2Prev [c2TokN, c2TokE]
      = fullParse c2G c2Fuel [c2TokN, c2TokE] :=
  incremental_eq_full c2G c2Fuel [c2TokN] [c2TokN, c2TokE] c2Prev
    (by intro r hr; simp only [c2G, List.mem_singleton] at hr; subst hr; simp)
    (by decide) (by decide) (by rfl) (by rfl) (by decide)

/-! ### The promQL grammar (`promQLGrammar` in
`src/promq/autocomplete/earley/promql.go`, the grammar generation the
claim cites), rules in source order so rule ids equal `NewGrammar`'s
indices -/

def Identifier : Sym := .tm TokenType.ID none
def MetricIdentifier : Sym := .tm TokenType.ID (some TokenType.METRIC_ID)
def MetricLabelIdentifier : Sym :=
  .tm TokenType.ID (some TokenType.METRIC_LABEL_SUBTYPE)
def ScalarFunctionIdentifier : Sym :=
  .tm TokenType.ID (some TokenType.FUNCTION_SCALAR_ID)
def VectorFunctionIdentifier : Sym :=
  .tm TokenType.ID (some TokenType.FUNCTION_VECTOR_ID)
def AggregatorOp : Sym := .tm TokenType.AGGR_OP none
def AggregateKeyword : Sym := .tm TokenType.AGGR_KW none
def BoolKeyword : Sym := .tm TokenType.KEYWORD (some TokenType.BOOL_KW)
def OffsetKeyword : Sym := .tm TokenType.KEYWORD (some TokenType.OFFSET_KW)
def GroupKeyword : Sym := .tm TokenType.GROUP_KW none
def GroupSide : Sym := .tm TokenType.GROUP_SIDE none
def Arithmetic : Sym := .tm TokenType.ARITHMETIC none
def SetOperator : Sym := .tm TokenType.SET none
def LabelMatchOperator : Sym := .tm TokenType.OPERATOR (some TokenType.LABELMATCH)
def Comparision : Sym := .tm TokenType.OPERATOR (some TokenType.COMPARISION)
def LBrace : Sym := .tm TokenType.LEFT_BRACE none
def RBrace : Sym := .tm TokenType.RIGHT_BRACE none
def LBracket : Sym := .tm TokenType.LEFT_BRACKET none
def RBracket : Sym := .tm TokenType.RIGHT_BRACKET none
def CommaSym : Sym := .tm TokenType.COMMA none
def ColonSym : Sym := .tm TokenType.COLON none
def LParen : Sym := .tm TokenType.LEFT_PAREN none
def RParen : Sym := .tm TokenType.RIGHT_PAREN none
def Str : Sym := .tm TokenType.STRING none
def NumSym : Sym := .tm TokenType.NUM none
def DurationSym : Sym := .tm TokenType.DURATION none
def EofSym : Sym := .tm TokenType.EOF none

def RootNT : Sym := .nt "root" true
def Expression : Sym := .nt "expression" false
def AggrExpression : Sym := .nt "aggr-expression" false
def FuncExpression : Sym := .nt "function-expression" false
def SubqueryExpression : Sym := .nt "subquery-expression" false
def VectorFuncExpression : Sym := .nt "vector-function-expression" false
def ScalarFuncExpression : Sym := .nt "scalar-function-expression" false
def MatrixSelector : Sym := .nt "matrix-selector" false
def VectorSelector : Sym := .nt "vector-selector" false
def MetricExpression : Sym := .nt "metric-expression" false
def LabelsExpression : Sym := .nt "labels-expression" false
def LabelsMatchExpression : Sym := .nt "labels-match-expression" false
def LabelValueExpression : Sym := .nt "label-value-expression" false
def AggrCallExpression : Sym := .nt "aggr-call-expression" false
def MetricLabelArgs : Sym := .nt "label-args" false
def OffsetExpression : Sym := .nt "offset-expression" false
def FunctionCallBody : Sym := .nt "function-call-body" false
def FunctionCallArgs : Sym := .nt "function-call-args" false
def ScalarTypeExpression : Sym := .nt "scalar-type-expression" false
def VectorTypeExpression : Sym := .nt "vector-type-expression" false
def MatrixTypeExpression : Sym := .nt "matrix-type-expression" false
def ScalarBinaryExpression : Sym := .nt "scalar-binary-expression" false
def VectorBinaryExpression : Sym := .nt "vector-binary-expression" false
def BinaryOperator : Sym := .nt "scalar-binary-operator" false
def BinaryGroupModifier : Sym := .nt "binary-group-modifier" false

/-- `NewRule(lhs, rhs...)`: the left symbol is always a non-terminal. -/
def mkRule (lhs : Sym) (rhs : List Sym) : GrammarRule :=
  match lhs with
  | .nt n root => ⟨n, root, rhs⟩
  | .tm _ _ => ⟨"", false, rhs⟩

def promQLGrammar : Grammar := ⟨[
  mkRule RootNT [Expression, EofSym],
  mkRule Expression [ScalarTypeExpression],
  mkRule Expression [VectorTypeExpression],
  mkRule Expression [MatrixTypeExpression],
  mkRule ScalarTypeExpression [ScalarBinaryExpression],
  mkRule ScalarTypeExpression [NumSym],
  mkRule ScalarTypeExpression [ScalarFuncExpression],
  mkRule VectorTypeExpression [VectorSelector],
  mkRule VectorTypeExpression [VectorBinaryExpression],
  mkRule VectorTypeExpression [VectorFuncExpression],
  mkRule VectorTypeExpression [AggrExpression],
  mkRule MatrixTypeExpression [MatrixSelector],
  mkRule MatrixTypeExpression [SubqueryExpression],
  mkRule MetricExpression [VectorSelector],
  mkRule MetricExpression [MatrixSelector],
  mkRule VectorSelector [MetricIdentifier],
  mkRule VectorSelector [MetricIdentifier, LabelsMatchExpression],
  mkRule VectorSelector [MetricIdentifier, OffsetExpression],
  mkRule VectorSelector [MetricIdentifier, LabelsMatchExpression, OffsetExpression],
  mkRule MatrixSelector [MetricIdentifier, LBracket, DurationSym, RBracket],
  mkRule MatrixSelector [MetricIdentifier, LabelsMatchExpression, LBracket, DurationSym, RBracket],
  mkRule MatrixSelector [MetricIdentifier, LBracket, DurationSym, RBracket, OffsetExpression],
  mkRule MatrixSelector [MetricIdentifier, LabelsMatchExpression, LBracket, DurationSym, RBracket, OffsetExpression],
  mkRule OffsetExpression [OffsetKeyword, DurationSym],
  mkRule AggrExpression [AggregatorOp, AggrCallExpression],
  mkRule AggrExpression [AggregatorOp, AggrCallExpression, AggregateKeyword, LabelsExpression],
  mkRule AggrExpression [AggregatorOp, AggregateKeyword, LabelsExpression, AggrCallExpression],
  mkRule AggrCallExpression [LParen, VectorTypeExpression, RParen],
  mkRule LabelsExpression [LParen, MetricLabelArgs, RParen],
  mkRule LabelsExpression [LParen, RParen],
  mkRule LabelsExpression [LParen, MetricLabelArgs, CommaSym, RParen],
  mkRule MetricLabelArgs [MetricLabelArgs, CommaSym, MetricLabelIdentifier],
  mkRule MetricLabelArgs [MetricLabelIdentifier],
  mkRule LabelsMatchExpression [LBrace, LabelValueExpression, RBrace],
  mkRule LabelValueExpression [MetricLabelIdentifier, LabelMatchOperator, Str],
  mkRule LabelValueExpression [LabelValueExpression, CommaSym, MetricLabelIdentifier, LabelMatchOperator, Str],
  mkRule (Sym.nt "binary-expression" false) [ScalarBinaryExpression],
  mkRule (Sym.nt "binary-expression" false) [VectorBinaryExpression],
  mkRule ScalarBinaryExpression [LParen, ScalarBinaryExpression, RParen],
  mkRule VectorBinaryExpression [LParen, VectorBinaryExpression, RParen],
  mkRule BinaryOperator [Arithmetic],
  mkRule BinaryOperator [Comparision],
  mkRule BinaryOperator [Comparision, BoolKeyword],
  mkRule BinaryGroupModifier [GroupKeyword, LabelsExpression],
  mkRule BinaryGroupModifier [GroupKeyword, LabelsExpression, GroupSide],
  mkRule BinaryGroupModifier [GroupKeyword, LabelsExpression, GroupSide, LabelsExpression],
  mkRule ScalarBinaryExpression [ScalarTypeExpression, Arithmetic, ScalarTypeExpression],
  mkRule ScalarBinaryExpression [ScalarTypeExpression, Comparision, BoolKeyword, ScalarTypeExpression],
  mkRule VectorBinaryExpression [ScalarTypeExpression, BinaryOperator, VectorTypeExpression],
  mkRule VectorBinaryExpression [VectorTypeExpression, BinaryOperator, ScalarTypeExpression],
  mkRule VectorBinaryExpression [VectorTypeExpression, BinaryOperator, VectorTypeExpression],
  mkRule VectorBinaryExpression [VectorTypeExpression, SetOperator, VectorTypeExpression],
  mkRule VectorBinaryExpression [VectorTypeExpression, BinaryOperator, BinaryGroupModifier, VectorTypeExpression],
  mkRule VectorBinaryExpression [VectorTypeExpression, SetOperator, GroupKeyword, LabelsExpression, VectorTypeExpression],
  mkRule FuncExpression [ScalarFuncExpression],
  mkRule FuncExpression [VectorTypeExpression],
  mkRule VectorFuncExpression [VectorFunctionIdentifier, FunctionCallBody],
  mkRule FunctionCallBody [LParen, RParen],
  mkRule FunctionCallBody [LParen, FunctionCallArgs, RParen],
  mkRule FunctionCallArgs [Expression],
  mkRule FunctionCallArgs [FunctionCallArgs, CommaSym, Expression],
  mkRule ScalarFuncExpression [ScalarFunctionIdentifier, LParen, RParen],
  mkRule ScalarFuncExpression [ScalarFunctionIdentifier, LParen, VectorTypeExpression, RParen],
  mkRule SubqueryExpression [VectorTypeExpression, LBracket, DurationSym, ColonSym, RBracket],
  mkRule SubqueryExpression [VectorTypeExpression, LBracket, DurationSym, ColonSym, DurationSym, RBracket],
  mkRule SubqueryExpression [VectorTypeExpression, LBracket, DurationSym, ColonSym, RBracket, OffsetExpression],
  mkRule SubqueryExpression [VectorTypeExpression, LBracket, DurationSym, ColonSym, DurationSym, RBracket, OffsetExpression]]⟩

/-! ### The empty-query suggestion set (claim C7) -/

/-- The EOF sentinel token `extractWords ""` yields for the empty query. -/
def c7Eof : Tokhan := ⟨[], TokenType.EOF, 0, 0⟩

def c7Fuel : Nat := fuelBound promQLGrammar 2

/-- The suggested token types for the empty query (cursor 0). -/
def c7Types : List TokenType :=
  (getSuggestedTokenTypes promQLGrammar c7Fuel [c7Eof]).getD []

/-- A concrete metric index with one metric `up{job=...}`. -/
def c7Index : QueryIndex :=
  ⟨["up"], (fun m => if m == "up" then ["job"] else []), fun _ _ => []⟩

/-- The concrete suggestions the completer maps the empty-query type set
to (empty typed prefix). -/
def c7Matches : List Match :=
  generateSuggestionsGo c7Index "" (c7Types.map (fun t => ⟨t, none, none⟩))

/-- Claim C7, counterexample: for the empty query the engine's suggested
token types contain no unary operator at all (the cited grammar has no
unary rules), and the mapping stage of `GenerateSuggestions` — whose
switch has no arm for `NUM`, `LEFT_PAREN`, `FUNCTION_SCALAR_ID` or
`FUNCTION_VECTOR_ID` — returns only metric-identifier and
aggregator-operation suggestions, not the claimed number /
function-kind / left-parenthesis / unary suggestions. -/
theorem generateSuggestions_empty_query_counterexample :
    getSuggestedTokenTypes promQLGrammar c7Fuel [c7Eof] = some c7Types ∧
    TokenType.UNARY_OP ∉ c7Types ∧
    c7Matches ≠ [] ∧
    ∀ m ∈ c7Matches, m.Kind = "metric-id" ∨ m.Kind = "aggr-operation" :=
  ⟨rfl, by decide, by decide, by decide⟩

/-- Claim C7, amended: for the empty query with cursor 0 the suggested
token-type set is exactly number, left parenthesis, scalar-function
identifier, metric identifier, vector-function identifier and
aggregator operation (no unary operator), and `GenerateSuggestions`
maps it to exactly the metric-identifier suggestions plus the eleven
aggregator-operation suggestions, sorted descending by value. -/
theorem generateSuggestions_empty_query :
    getSuggestedTokenTypes promQLGrammar c7Fuel [c7Eof]
      = some [TokenType.NUM, TokenType.LEFT_PAREN,
        TokenType.FUNCTION_SCALAR_ID, TokenType.METRIC_ID,
        TokenType.FUNCTION_VECTOR_ID, TokenType.AGGR_OP] ∧
    c7Matches.map (fun m => (m.Value, m.Kind)) =
      [("up", "metric-id"), ("topk", "aggr-operation"),
       ("sum", "aggr-operation"), ("stdvar", "aggr-operation"),
       ("stddev", "aggr-operation"), ("quantile", "aggr-operation"),
       ("min", "aggr-operation"), ("max", "aggr-operation"),
       ("count_values", "aggr-operation"), ("count", "aggr-operation"),
       ("bottomk", "aggr-operation"), ("avg", "aggr-operation")] :=
  ⟨rfl, rfl⟩

end PromQL
